import Mathlib

/-!
Verification development for the segmentation / splitting / recombination core
of `textProcessing/text_separator.py` (LinguaHaru).

The Python source is shallowly embedded below:
* the tokenizer (external `tiktoken`) is a parameter: a `Tokenizer` gives
  `encode`/`decode` over abstract token ids, `count` is the encoded length;
* JSON data loaded from files is modelled as Lean lists of records whose
  optional fields mirror `dict.get` usage in the source;
* Python `dict`s (insertion ordered) are modelled as association lists with
  an update operation that overwrites in place and appends new keys;
* the generator `get_next_segment` is modelled as a recursive function that
  returns the whole emitted sequence; each emitted segment also records the
  contents of the working-copy file at the moment of the yield
  (`update_source_file` is called right before every yield) and, as an audit
  trail, the list of trimmed values that were scanned into the segment.
-/

/-! ### Small generic helpers -/

/-- Python `patt in text` on character lists: `isPre patt hay` is prefix test. -/
def isPre : List Char → List Char → Bool
  | [], _ => true
  | _ :: _, [] => false
  | a :: as, b :: bs => a = b && isPre as bs

/-- Substring occurrence test over char lists (Python `in` for strings). -/
def hasSubL (patt : List Char) : List Char → Bool
  | [] => isPre patt []
  | c :: rest => isPre patt (c :: rest) || hasSubL patt rest

/-- Python `term in text` for strings. -/
def strHasSub (text term : String) : Bool :=
  hasSubL term.data text.data

/-- Whitespace as stripped by Python `str.strip` (ASCII range; the data in
this program never contains the exotic Unicode spaces). -/
def pyWhite (c : Char) : Bool :=
  c = ' ' || c = '\t' || c = '\n' || c = '\r' || c = Char.ofNat 11 || c = Char.ofNat 12

/-- Python `s.strip()`. -/
def pyStrip (s : String) : String :=
  String.mk (((s.data.dropWhile pyWhite).reverse.dropWhile pyWhite).reverse)

/-- Python `s.split(sep)` for a one-character separator. -/
def splitOnCharAux (sep : Char) : List Char → List Char → List (List Char)
  | acc, [] => [acc.reverse]
  | acc, c :: rest =>
    if c = sep then acc.reverse :: splitOnCharAux sep [] rest
    else splitOnCharAux sep (c :: acc) rest

/-- Python `s.split(sep)` for a one-character separator, on strings. -/
def pySplitOnChar (sep : Char) (s : String) : List String :=
  (splitOnCharAux sep [] s.data).map String.mk

/-- Stable insertion used to model Python's stable `sorted`:
`x` is placed before the first element `y` with `le x y`. -/
def insStable {α : Type} (le : α → α → Bool) (x : α) : List α → List α
  | [] => [x]
  | y :: ys => if le x y then x :: y :: ys else y :: insStable le x ys

/-- Stable sort (Python `sorted`): earlier elements win ties when
`le` is reflexive on ties. -/
def sortStable {α : Type} (le : α → α → Bool) (l : List α) : List α :=
  l.foldr (insStable le) []

/-- Association-list lookup (Python `dict` access by key). -/
def alLookup {α : Type} : List (String × α) → String → Option α
  | [], _ => none
  | (k, v) :: rest, key => if k = key then some v else alLookup rest key

/-- Association-list update with Python dict semantics: overwrite in place
if the key exists, else append at the end. -/
def alSet {α : Type} : List (String × α) → String → α → List (String × α)
  | [], key, v => [(key, v)]
  | (k, w) :: rest, key, v =>
    if k = key then (k, v) :: rest else (k, w) :: alSet rest key v

/-! ### Tokenizer oracle (external `tiktoken`, kept abstract) -/

/-- A deterministic tokenizer: `encode` into token ids, `decode` back.
`num_tokens_from_string` is the length of the encoding. -/
structure Tokenizer where
  encode : String → List Nat
  decode : List Nat → String

/-- `num_tokens_from_string` for a given tokenizer. -/
def Tokenizer.count (T : Tokenizer) (s : String) : Nat :=
  (T.encode s).length

/-- A concrete tokenizer for witnesses: one token per character. -/
def charTok : Tokenizer :=
  ⟨fun s => s.data.map Char.toNat, fun l => String.mk (l.map Char.ofNat)⟩

/-- Character-count token oracle used to instantiate universally
quantified statements at concrete inputs. -/
def charCount (s : String) : Nat := s.length

/-! ### JSON rendering (`json.dumps(..., ensure_ascii=False, indent=4)`) -/

/-- Hex digit (lowercase), for `\u00XX` escapes of control characters. -/
def hexDigit (n : Nat) : Char :=
  if n < 10 then Char.ofNat (48 + n) else Char.ofNat (87 + n)

/-- JSON string escaping as `json.dumps` with `ensure_ascii=False` does it:
escape backslash, double quote and control characters, leave the rest. -/
def jsonEscapeChar (c : Char) : String :=
  if c = '"' then "\\\""
  else if c = '\\' then "\\\\"
  else if c = '\n' then "\\n"
  else if c = '\r' then "\\r"
  else if c = '\t' then "\\t"
  else if c = Char.ofNat 8 then "\\b"
  else if c = Char.ofNat 12 then "\\f"
  else if c.toNat < 32 then
    String.mk ['\\', 'u', '0', '0', hexDigit (c.toNat / 16), hexDigit (c.toNat % 16)]
  else String.singleton c

/-- Escape a whole string for JSON output. -/
def jsonEscape (s : String) : String :=
  String.join (s.data.map jsonEscapeChar)

/-- `json.dumps` of a plain string (used for the prompt overhead). -/
def jsonDumpsStr (s : String) : String :=
  "\"" ++ jsonEscape s ++ "\""

/-- The segment dictionary: Python dict mapping `str(count)` to the trimmed
value.  Since `str` is injective on integers, keys are kept as the integer
counts; rendering stringifies them. -/
abbrev SegDict := List (Int × String)

/-- `json.dumps(segment_dict, ensure_ascii=False, indent=4)`. -/
def jsonDumpsDict (d : SegDict) : String :=
  match d with
  | [] => "\x7b\x7d"
  | _ =>
    "\x7b\n"
      ++ String.intercalate ",\n"
        (d.map (fun p =>
          "    \"" ++ jsonEscape (toString p.1) ++ "\": \"" ++ jsonEscape p.2 ++ "\""))
      ++ "\n\x7d"

/-- `create_segment_output`: the fenced-JSON wire format of a segment. -/
def create_segment_output (d : SegDict) : String :=
  "```json\n" ++ jsonDumpsDict d ++ "\n```"

/-! ### Glossary matcher (`find_terms_with_hashtable`) -/

/-- Value of `term_dict[src]` where `term_dict = {src: dst for src, dst in entries}`:
the *last* pair with the given source term wins. -/
def lastLookup (entries : List (String × String)) (k : String) : String :=
  entries.foldl (fun acc p => if p.1 = k then p.2 else acc) ""

/-- Keys of the Python dict comprehension, in insertion order of first
occurrence, deduplicated. -/
def dedupKeys (entries : List (String × String)) : List String :=
  entries.foldl (fun acc p => if p.1 ∈ acc then acc else acc ++ [p.1]) []

/-- Descending-by-length stable order for `sorted(keys, key=len, reverse=True)`. -/
def lenDescLe (a b : String) : Bool := b.length ≤ a.length

/-- The scan loop of `find_terms_with_hashtable`, with the `found_terms` set. -/
def ftGo (text : String) (entries : List (String × String)) :
    List String → List String → List (String × String)
  | [], _ => []
  | t :: rest, found =>
    if strHasSub text t && !(found.contains t) then
      (t, lastLookup entries t) :: ftGo text entries rest (found ++ [t])
    else
      ftGo text entries rest found

/-- `find_terms_with_hashtable(text, glossary_entries)`. -/
def find_terms_with_hashtable (text : String) (entries : List (String × String)) :
    List (String × String) :=
  ftGo text entries (sortStable lenDescLe (dedupKeys entries)) []

/-- Append each pair of `l` not already present (list-as-ordered-set). -/
def addPairs (t l : List (String × String)) : List (String × String) :=
  l.foldl (fun acc p => if p ∈ acc then acc else acc ++ [p]) t

/-- Accumulate found terms into the per-segment list, skipping pairs already
present (lines 193–197 / 226–230 of the source). -/
def addTerms (cur : List (String × String)) (value : String)
    (entries : List (String × String)) : List (String × String) :=
  addPairs cur (find_terms_with_hashtable value entries)

/-! ### Batch segmenter (`stream_segment_json` / `get_next_segment`) -/

/-- One input unit, as loaded from the JSON file: `cell.get("count")` and
`cell.get("value", "")`. -/
structure Cell where
  count : Option Int
  value : String
deriving DecidableEq, Repr

/-- `cell.get("count", 0)` as used for the progress denominator. -/
def cellCount (c : Cell) : Int := c.count.getD 0

/-- A valid cell has a count and a non-empty trimmed value. -/
def validCell (c : Cell) : Bool := c.count.isSome && pyStrip c.value ≠ ""

/-- `max((cell.get("count", 0) for cell in cell_data), default=0)`. -/
def maxCountOf (cells : List Cell) : Int :=
  match cells with
  | [] => 0
  | c :: rest => rest.foldl (fun m x => max m (cellCount x)) (cellCount c)

/-- Python dict update `{**d, str(count): value}` with integer-coded keys:
overwrite in place, or append a new key at the end. -/
def dictInsert : SegDict → Int → String → SegDict
  | [], k, v => [(k, v)]
  | (k0, v0) :: rest, k, v =>
    if k0 = k then (k0, v) :: rest else (k0, v0) :: dictInsert rest k v

/-- `max(int(key) for key in segment_dict.keys())` (dict non-empty). -/
def maxKeyInt (d : SegDict) : Int :=
  match d with
  | [] => 0
  | p :: rest => rest.foldl (fun m q => max m q.1) p.1

/-- `calculate_progress(segment_dict, max_count)`. -/
def calculate_progress (d : SegDict) (maxCount : Int) : ℚ :=
  if d = [] then 1
  else if 0 < maxCount then (maxKeyInt d : ℚ) / (maxCount : ℚ)
  else 1

/-- Fixed prompt overhead: token counts of the JSON dumps of the non-empty
prompt strings. -/
def prompt_token_count (tok : String → Nat) (prompts : List String) : Nat :=
  (prompts.filter (fun p => p ≠ "")).foldl (fun a p => a + tok (jsonDumpsStr p)) 0

/-- One yielded segment: the dict, the glossary terms, the contents of the
working-copy file right after the `update_source_file` call preceding the
yield, and (audit trail) the trimmed values scanned into this segment —
including, for an overflow flush, the value of the unit that seeds the next
segment, because the source accumulates glossary terms for that value before
the budget check.

The other two components of the yielded triple are pure functions of the
dict and are not stored: the wire string is `create_segment_output dict` and
the reported progress is `calculate_progress dict max_count` with
`max_count = maxCountOf cells` fixed once per run. -/
structure Seg where
  dict : SegDict
  terms : List (String × String)
  fileAfter : List Cell
  vals : List String
deriving DecidableEq, Repr

/-- The body of the generator `get_next_segment`, as a function from the
remaining cells and the in-progress state to the list of yielded segments. -/
def segGo (tok : String → Nat) (ptk maxTok : Nat) (entries : List (String × String)) :
    List Cell → SegDict → List (String × String) → List String → List Seg
  | [], dict, terms, vals =>
    if dict = [] then []
    else [⟨dict, terms, [], vals⟩]
  | c :: rest, dict, terms, vals =>
    match c.count with
    | none => segGo tok ptk maxTok entries rest dict terms vals
    | some cnt =>
      let v := pyStrip c.value
      if v = "" then segGo tok ptk maxTok entries rest dict terms vals
      else
        let cand := dictInsert dict cnt v
        let ntok := ptk + tok (create_segment_output cand)
        let terms1 := addTerms terms v entries
        if maxTok < ntok then
          if dict = [] then
            segGo tok ptk maxTok entries rest (dictInsert [] cnt v)
              (addTerms terms1 v entries) (vals ++ [v])
          else
            ⟨dict, terms1, c :: rest, vals ++ [v]⟩ ::
              segGo tok ptk maxTok entries rest (dictInsert [] cnt v)
                (addTerms [] v entries) [v]
        else
          segGo tok ptk maxTok entries rest cand terms1 (vals ++ [v])

/-- A full uninterrupted segmentation run over the given cells. -/
def segRun (tok : String → Nat) (prompts : List String) (maxTok : Nat)
    (entries : List (String × String)) (cells : List Cell) : List Seg :=
  segGo tok (prompt_token_count tok prompts) maxTok entries cells [] [] []

/-- The progress value reported with a segment of a run over `cells`. -/
def segProgress (cells : List Cell) (s : Seg) : ℚ :=
  calculate_progress s.dict (maxCountOf cells)

/-- `stream_segment_json`: the working copy is the pre-existing one if present,
else a fresh copy of the input; empty data deletes the working copy and raises
`ValueError`.  Returns the outcome together with the final state of the
working-copy file (`none` = removed: on the error path it is removed before
raising, on the success path at generator completion). -/
def stream_segment_json (tok : String → Nat) (prompts : List String) (maxTok : Nat)
    (entries : List (String × String)) (origFile : List Cell)
    (existingWorking : Option (List Cell)) :
    Except String (List Seg) × Option (List Cell) :=
  let cellData := existingWorking.getD origFile
  if cellData = [] then
    (Except.error "cell_data is empty. Please check the input data.", none)
  else
    (Except.ok (segGo tok (prompt_token_count tok prompts) maxTok entries
      cellData [] [] []), none)

/-- The batches produced by a `stream_segment_json` invocation (none if the
invocation raised). -/
def streamBatches (r : Except String (List Seg) × Option (List Cell)) : List Seg :=
  match r.1 with
  | Except.ok l => l
  | Except.error _ => []

/-! ### Sentence and clause splitting

`re.split(f'({pat})', text)` where `pat` itself already contains a capturing
group returns, for every separator match, the matched text **twice** (once per
group).  The splitter below reproduces this faithfully: each separator (one
boundary character followed by a greedy run of closing characters) is emitted
twice into the parts list.  Recursions take an explicit fuel argument (the
character count, which bounds the number of steps) so that all functions are
structurally recursive and evaluate by `decide`/`rfl`. -/

/-- Sentence-terminal characters `。！？!?`. -/
def isTerminalCh (c : Char) : Bool :=
  c = '。' || c = '！' || c = '？' || c = '!' || c = '?'

/-- Closing quote/bracket characters `"'）)` that may trail a boundary. -/
def isCloserCh (c : Char) : Bool :=
  c = '"' || c = Char.ofNat 39 || c = '）' || c = ')'

/-- Internal punctuation `，,；;：:`. -/
def isInternalCh (c : Char) : Bool :=
  c = '，' || c = ',' || c = '；' || c = ';' || c = '：' || c = ':'

/-- `re.split` with all groups returned: every matched separator appears twice
because the compiled pattern nests the already-parenthesised pattern inside
another group. -/
def reSplitAux (isT isC : Char → Bool) : Nat → List Char → List Char → List String
  | 0, acc, _ => [String.mk acc.reverse]
  | _ + 1, acc, [] => [String.mk acc.reverse]
  | fuel + 1, acc, c :: rest =>
    if isT c then
      let cl := rest.takeWhile isC
      let rest2 := rest.dropWhile isC
      let sep := String.mk (c :: cl)
      String.mk acc.reverse :: sep :: sep :: reSplitAux isT isC fuel [] rest2
    else reSplitAux isT isC fuel (c :: acc) rest

/-- The parts list produced by `re.split(f'({pat})', s)`. -/
def pySplitParts (isT isC : Char → Bool) (s : String) : List String :=
  reSplitAux isT isC s.data.length [] s.data

/-- `re.match(pat, part)` for the boundary patterns: the part must start with
a boundary character. -/
def startsWith1 (p : Char → Bool) (s : String) : Bool :=
  match s.data with
  | [] => false
  | c :: _ => p c

/-- The `while` loop of `split_into_sentences` over the parts list. -/
def assembleSentences : Nat → List String → String → List String
  | 0, _, cur => if pyStrip cur = "" then [] else [cur]
  | _ + 1, [], cur => if pyStrip cur = "" then [] else [cur]
  | fuel + 1, p :: rest, cur =>
    match rest with
    | q :: rest2 =>
      if startsWith1 isTerminalCh q then
        (cur ++ p ++ q) :: assembleSentences fuel rest2 ""
      else
        assembleSentences fuel (q :: rest2) (cur ++ p)
    | [] => if pyStrip (cur ++ p) = "" then [] else [cur ++ p]

/-- `split_into_sentences(text)`. -/
def split_into_sentences (text : String) : List String :=
  let parts := pySplitParts isTerminalCh isCloserCh text
  (assembleSentences parts.length parts "").filter (fun s => pyStrip s ≠ "")

/-- Token-boundary slicing of an over-long clause: encode, cut into
`maxTokens`-sized slices, decode each slice. -/
def sliceAux (T : Tokenizer) (mx : Nat) : Nat → List Nat → List String
  | 0, _ => []
  | _ + 1, [] => []
  | fuel + 1, l => T.decode (l.take mx) :: sliceAux T mx fuel (l.drop mx)

/-- `for j in range(0, len(encoded), max_tokens): decode(encoded[j:j+max_tokens])`.
For `max_tokens = 0` Python raises; the model returns `[]` (never reached by
the source, which only calls this with a positive budget and a non-empty
encoding). -/
def sliceChunks (T : Tokenizer) (mx : Nat) (s : String) : List String :=
  if mx = 0 then []
  else
    let enc := T.encode s
    sliceAux T mx enc.length enc

/-- The `while` loop of `split_long_sentence` over the parts list.  Note the
source does not reset `current_chunk` after character-slicing an over-long
part, so already-emitted text can be emitted again — modelled faithfully. -/
def slsGo (T : Tokenizer) (mx : Nat) : Nat → List String → String → Nat → List String
  | 0, _, cur, _ => if cur = "" then [] else [cur]
  | _ + 1, [], cur, _ => if cur = "" then [] else [cur]
  | fuel + 1, p :: rest, cur, ct =>
    let punct :=
      match rest with
      | q :: _ => if startsWith1 isInternalCh q then q else ""
      | [] => ""
    let rest' := if punct = "" then rest else rest.tail
    let pw := p ++ punct
    let pt := T.count pw
    if mx < ct + pt then
      if mx < pt then
        (if cur = "" then [] else [cur]) ++ sliceChunks T mx pw
          ++ slsGo T mx fuel rest' cur ct
      else
        (if cur = "" then [] else [cur]) ++ slsGo T mx fuel rest' pw pt
    else
      slsGo T mx fuel rest' (cur ++ pw) (ct + pt)

/-- `split_long_sentence(sentence, max_tokens)`. -/
def split_long_sentence (T : Tokenizer) (sentence : String) (mx : Nat) : List String :=
  if T.count sentence ≤ mx then [sentence]
  else
    let parts := pySplitParts isInternalCh isCloserCh sentence
    slsGo T mx parts.length parts "" 0

/-- The sentence-accumulation loop of `split_by_sentences_and_combine`. -/
def sbscGo (T : Tokenizer) (mx : Nat) : List String → String → Nat → List String
  | [], cur, _ => if cur = "" then [] else [cur]
  | s :: rest, cur, ct =>
    let st := T.count s
    if mx < st then
      (if cur = "" then [] else [cur]) ++ split_long_sentence T s mx
        ++ sbscGo T mx rest "" 0
    else if mx < ct + st ∧ cur ≠ "" then
      cur :: sbscGo T mx rest s st
    else
      sbscGo T mx rest (cur ++ s) (ct + st)

/-- `split_by_sentences_and_combine(text, max_tokens)`. -/
def split_by_sentences_and_combine (T : Tokenizer) (text : String) (mx : Nat) :
    List String :=
  sbscGo T mx (split_into_sentences text) "" 0

/-! ### Unit splitting (`split_text_by_token_limit`) -/

/-- An input item of `split_text_by_token_limit` (`item["count"]`,
`item["value"]`, `item.get("type", ...)` carried through by deep copy). -/
structure SrcItem where
  count : Int
  value : String
  type : String
deriving DecidableEq, Repr

/-- An output item: the split file's entries. `chunk = none` models the field
being absent (unsplit items never get a `chunk` key). -/
structure SplitItem where
  count : Int
  value : String
  original_count : Int
  chunk : Option String
  type : String
deriving DecidableEq, Repr

/-- `split_text_by_token_limit` on in-memory data: split over-long values into
sentence/clause chunks, tag with `original_count` and `chunk = "i/n"`, then
renumber all counts sequentially from 1. -/
def split_text_by_token_limit (T : Tokenizer) (items : List SrcItem) (mx : Nat) :
    List SplitItem :=
  let base := items.foldl
    (fun (res : List SplitItem) item =>
      if T.count item.value ≤ mx then
        res ++ [⟨item.count, item.value, item.count, none, item.type⟩]
      else
        let chunks := split_by_sentences_and_combine T item.value mx
        let n := chunks.length
        res ++ chunks.enum.map (fun p =>
          ⟨(res.length : Int) + (p.1 : Int) + 1, p.2, item.count,
            some (toString (p.1 + 1) ++ "/" ++ toString n), item.type⟩))
    []
  base.enum.map (fun p => { p.2 with count := (p.1 : Int) + 1 })

/-! ### Recombination (`recombine_split_jsons`) -/

/-- A source entry as read back by `recombine_split_jsons`.  Fields are
optional: `none` models an absent key; the source applies `str(...)` to
`count`/`original_count`, so those are modelled in stringified form. -/
structure RSrcItem where
  count : Option String
  original_count : Option String
  chunk : Option String
  value : Option String
  type : Option String
deriving DecidableEq, Repr

/-- A translated entry; `count = none` models an item without a `"count"` key
(skipped by the source). -/
structure TransItem where
  count : Option String
  original : Option String
  translated : Option String
deriving DecidableEq, Repr

/-- Per-count chunk-slot state built by the first pass. -/
structure ChunkGroup where
  chunks : List (Option String)
  type : String
  original_count : String
deriving DecidableEq, Repr

/-- A final recombined record; `count` is `int(original_count)` when the
string is all digits, else the raw string. -/
structure RecombRecord where
  count : Int ⊕ String
  type : String
  original : String
  translated : String
deriving DecidableEq, Repr

/-- Digits of a decimal literal, if the char list is non-empty and all digits. -/
def digitsToNat : List Char → Option Nat
  | [] => none
  | l => if l.all Char.isDigit then
      some (l.foldl (fun n c => n * 10 + (c.toNat - 48)) 0)
    else none

/-- Python `int(s)` on a plain decimal literal with optional sign. -/
def pyIntParse (s : String) : Option Int :=
  match s.data with
  | '-' :: rest => (digitsToNat rest).map (fun n => -(n : Int))
  | '+' :: rest => (digitsToNat rest).map (fun n => (n : Int))
  | l => (digitsToNat l).map (fun n => (n : Int))

/-- `chunk_num, total_chunks = map(int, chunk_info.split('/'))` with the
`except` fallback to `(1, 1)`. -/
def parseChunk (s : String) : Int × Int :=
  match pySplitOnChar '/' s with
  | [a, b] =>
    match pyIntParse a, pyIntParse b with
    | some x, some y => (x, y)
    | _, _ => (1, 1)
  | _ => (1, 1)

/-- Python `str.isdigit` (ASCII digits suffice for this data). -/
def isDigits (s : String) : Bool :=
  s ≠ "" && s.data.all Char.isDigit

/-- Value of a digit string. -/
def strToNatDigits (s : String) : Nat :=
  s.data.foldl (fun n c => n * 10 + (c.toNat - 48)) 0

/-- The `count` field of a recombined record for a given `original_count`. -/
def keyOf (oc : String) : Int ⊕ String :=
  if isDigits oc then Sum.inl (strToNatDigits oc) else Sum.inr oc

/-- Write `v` at index `i` of the slot list (in-range callers only). -/
def listSetAt : List (Option String) → Nat → String → List (Option String)
  | [], _, _ => []
  | _ :: rest, 0, v => some v :: rest
  | x :: rest, n + 1, v => x :: listSetAt rest n v

/-- First pass of `recombine_split_jsons`: collect chunk slots by `count`. -/
def chunkStep (acc : List (String × ChunkGroup)) (item : RSrcItem) :
    List (String × ChunkGroup) :=
  let count := item.count.getD ""
  if count = "" then acc
  else
    let oc := item.original_count.getD count
    let ci := parseChunk (item.chunk.getD "1/1")
    let content := item.value.getD ""
    if content = "" then acc
    else
      let acc1 :=
        match alLookup acc count with
        | none =>
          alSet acc count ⟨List.replicate ci.2.toNat none, item.type.getD "text", oc⟩
        | some g =>
          if (g.chunks.length : Int) < ci.2 then
            alSet acc count
              { g with chunks := g.chunks ++ List.replicate (ci.2 - (g.chunks.length : Int)).toNat none }
          else acc
      match alLookup acc1 count with
      | none => acc1
      | some g =>
        if 0 ≤ ci.1 - 1 ∧ ci.1 - 1 < (g.chunks.length : Int) then
          alSet acc1 count { g with chunks := listSetAt g.chunks (ci.1 - 1).toNat content }
        else acc1

/-- All chunk groups, keyed by `count`, in insertion order. -/
def collectChunks (src : List RSrcItem) : List (String × ChunkGroup) :=
  src.foldl chunkStep []

/-- Second pass: organise translations by `count`, concatenating duplicates. -/
def transStep (acc : List (String × (String × String))) (item : TransItem) :
    List (String × (String × String)) :=
  match item.count with
  | none => acc
  | some c =>
    match alLookup acc c with
    | none => alSet acc c (item.original.getD "", item.translated.getD "")
    | some pr => alSet acc c (pr.1 ++ item.original.getD "", pr.2 ++ item.translated.getD "")

/-- All translated entries keyed by `count`. -/
def collectTrans (trans : List TransItem) : List (String × (String × String)) :=
  trans.foldl transStep []

/-- `"".join(chunk for chunk in chunks if chunk)`: holes and empty strings are
dropped. -/
def joinChunks (g : ChunkGroup) : String :=
  String.join (g.chunks.filterMap (fun o =>
    match o with
    | some s => if s = "" then none else some s
    | none => none))

/-- Third pass: merge chunk groups into final records keyed by
`original_count`, falling back to the original text when no translation
matches the (expanded) count, and appending when several counts share one
`original_count`. -/
def mergeStep (tb : List (String × (String × String)))
    (acc : List (String × RecombRecord)) (p : String × ChunkGroup) :
    List (String × RecombRecord) :=
  let g := p.2
  let originalText := joinChunks g
  let translatedText :=
    match alLookup tb p.1 with
    | some pr => pr.2
    | none => originalText
  match alLookup acc g.original_count with
  | none =>
    alSet acc g.original_count ⟨keyOf g.original_count, g.type, originalText, translatedText⟩
  | some r =>
    alSet acc g.original_count
      { r with original := r.original ++ originalText,
               translated := r.translated ++ translatedText }

/-- The `result_by_original_count` mapping. -/
def mergeResults (cc : List (String × ChunkGroup))
    (tb : List (String × (String × String))) : List (String × RecombRecord) :=
  cc.foldl (mergeStep tb) []

/-- Ascending order on record keys (`get_count_key`); Python raises on a
mixed int/str comparison, which homogeneous data never hits. -/
def keyLe (a b : Int ⊕ String) : Bool :=
  match a, b with
  | Sum.inl x, Sum.inl y => x ≤ y
  | Sum.inr x, Sum.inr y => x < y || x = y
  | Sum.inl _, Sum.inr _ => true
  | Sum.inr _, Sum.inl _ => false

/-- `recombine_split_jsons(src, translated)` on in-memory data. -/
def recombine_split_jsons (src : List RSrcItem) (trans : List TransItem) :
    List RecombRecord :=
  sortStable (fun r1 r2 => keyLe r1.count r2.count)
    ((mergeResults (collectChunks src) (collectTrans trans)).map Prod.snd)

/-- View a split-file item the way `recombine_split_jsons` reads it back. -/
def toRSrc (it : SplitItem) : RSrcItem :=
  ⟨some (toString it.count), some (toString it.original_count), it.chunk,
    some it.value, some it.type⟩

/-- A synthetic "translated = original" entry for a split-file item. -/
def synthTrans (it : SplitItem) : TransItem :=
  ⟨some (toString it.count), some it.value, some it.value⟩

/-! ### Derived notions used by the statements below -/

/-- The keys (identities) of a segment dictionary. -/
def dictKeys (d : SegDict) : List Int := d.map Prod.fst

/-- Glossary-term accumulation over a list of values, starting empty:
the per-segment `current_glossary_terms` after scanning exactly `vals`. -/
def termsOfVals (entries : List (String × String)) (vals : List String) :
    List (String × String) :=
  vals.foldl (fun t v => addTerms t v entries) []

/-- `str(item.get("count", ""))` for a recombination source item. -/
def rsrcCount (it : RSrcItem) : String := it.count.getD ""

/-- `item.get("value", "")` for a recombination source item. -/
def rsrcValue (it : RSrcItem) : String := it.value.getD ""

/-- `str(item.get("original_count", count))`: the origin identity key. -/
def rsrcOrigin (it : RSrcItem) : String := it.original_count.getD (rsrcCount it)

/-- A recombination source item that contributes content: non-empty count
key and non-empty value. -/
def rsrcLive (it : RSrcItem) : Bool := rsrcCount it ≠ "" && rsrcValue it ≠ ""

/-! ### Contribution view of the recombination merge (used in proofs) -/

/-- What one chunk group contributes to its origin's record: the group type,
the joined original text, and the translated text (the matching translation
if present, else the original text). -/
structure Contrib where
  type : String
  orig : String
  trans : String
deriving DecidableEq, Repr

/-- The contribution of one `count → group` entry. -/
def contribOf (tb : List (String × (String × String))) (p : String × ChunkGroup) :
    Contrib :=
  ⟨p.2.type, joinChunks p.2,
    match alLookup tb p.1 with
    | some pr => pr.2
    | none => joinChunks p.2⟩

/-- All contributions to a given `original_count`, in encounter order. -/
def contribs (tb : List (String × (String × String)))
    (cc : List (String × ChunkGroup)) (oc : String) : List Contrib :=
  cc.filterMap (fun p =>
    if p.2.original_count = oc then some (contribOf tb p) else none)

/-- Extend a record by a list of contributions (string concatenation). -/
def extRec (r : RecombRecord) : List Contrib → RecombRecord
  | [] => r
  | c :: cs => extRec ⟨r.count, r.type, r.original ++ c.orig, r.translated ++ c.trans⟩ cs

/-- The record (if any) at key `oc` after merging the given contributions on
top of an existing optional record. -/
def combineR (oc : String) : Option RecombRecord → List Contrib → Option RecombRecord
  | some r, l => some (extRec r l)
  | none, [] => none
  | none, c :: cs => some (extRec ⟨keyOf oc, c.type, c.orig, c.trans⟩ cs)

/-! ## Theorems -/

/-! ### C8: empty input -/

/-- C8: if the unit sequence loaded for segmentation is empty, the run fails
with the empty-input `ValueError` before producing any batch, and the
working-copy file is removed (no partial WorkingState left behind). -/
theorem C8_empty_input (tok : String → Nat) (prompts : List String) (maxTok : Nat)
    (entries : List (String × String)) (origFile : List Cell)
    (existingWorking : Option (List Cell))
    (h : existingWorking.getD origFile = ([] : List Cell)) :
    stream_segment_json tok prompts maxTok entries origFile existingWorking =
      (Except.error "cell_data is empty. Please check the input data.", none) := by
  simp [stream_segment_json, h]

/-- Witness for C8 at a concrete empty input. -/
theorem C8_empty_input_witness :
    stream_segment_json charCount ["sys", "usr", "", ""] 100 [] [] none =
      (Except.error "cell_data is empty. Please check the input data.", none) :=
  C8_empty_input charCount ["sys", "usr", "", ""] 100 [] [] none (by decide)

/-! ### C4: glossary match precedence -/

/-- C4 counterexample: on pairs `[("New York","纽约"), ("New","新")]` and text
`"I live in New York"` the matcher does **not** return only the long match —
the shorter term `"New"`, which occurs in the text only inside `"New York"`,
is reported as well. -/
theorem C4_counterexample :
    find_terms_with_hashtable "I live in New York" [("New York", "纽约"), ("New", "新")] ≠
      [("New York", "纽约")] := by decide

/-- C4 (amended): the matcher returns the pairs ordered by descending term
length, deduplicated by source term only; a shorter term that occurs in the
text — even solely as a substring of an already-matched longer term — is also
reported, after the longer one. -/
theorem C4_amended_match :
    find_terms_with_hashtable "I live in New York" [("New York", "纽约"), ("New", "新")] =
      [("New York", "纽约"), ("New", "新")] := by decide

/-! ### C3: sentence boundary preservation (code bug) -/

/-- C3: evaluation of the embedded splitter on `"这是第一句。这是第二句！"`.
Because `re.split(f'({pat})')` nests an already-grouped pattern, every
separator is returned twice and leaks into the following sentence: the
sentence list is `["这是第一句。", "。这是第二句！", "！"]`, not the two clean
sentences the spec states; with a large budget the combiner returns one chunk
with duplicated punctuation, and with a budget forcing a split it returns the
three polluted chunks. -/
theorem C3_sentence_split_eval :
    split_into_sentences "这是第一句。这是第二句！" =
        ["这是第一句。", "。这是第二句！", "！"] ∧
      split_by_sentences_and_combine charTok "这是第一句。这是第二句！" 100 =
        ["这是第一句。。这是第二句！！"] ∧
      split_by_sentences_and_combine charTok "这是第一句。这是第二句！" 7 =
        ["这是第一句。", "。这是第二句！", "！"] := by
  exact ⟨by decide, by decide, by decide⟩

/-! ### C2: split/recombine round trip (code bug) -/

/-- C2: evaluation of the embedded splitter and recombiner on the unit
`{count: 1, value: "AA。BB。"}` with a per-character tokenizer and budget 4.
The sub-chunk values join to `"AA。。BB。。"` — the sentence-ending
punctuation is duplicated by the doubled regex capture group — and recombining
synthetic "translated = original" entries likewise reproduces the polluted
text, not the original value. -/
theorem C2_round_trip_eval :
    (split_text_by_token_limit charTok [⟨1, "AA。BB。", "text"⟩] 4).map
        (fun x => x.value) = ["AA。", "。BB。", "。"] ∧
      String.join ((split_text_by_token_limit charTok [⟨1, "AA。BB。", "text"⟩] 4).map
        (fun x => x.value)) = "AA。。BB。。" ∧
      recombine_split_jsons
          ((split_text_by_token_limit charTok [⟨1, "AA。BB。", "text"⟩] 4).map toRSrc)
          ((split_text_by_token_limit charTok [⟨1, "AA。BB。", "text"⟩] 4).map synthTrans) =
        [⟨Sum.inl 1, "text", "AA。。BB。。", "AA。。BB。。"⟩] ∧
      "AA。。BB。。" ≠ "AA。BB。" := by
  exact ⟨by decide, by decide, by decide, by decide⟩

/-! ### Unfolding lemmas for `segGo` -/

theorem segGo_nil (tok : String → Nat) (ptk maxTok : Nat)
    (entries : List (String × String)) (dict : SegDict)
    (terms : List (String × String)) (vals : List String) :
    segGo tok ptk maxTok entries [] dict terms vals =
      if dict = [] then [] else [⟨dict, terms, [], vals⟩] := rfl

theorem segGo_skip (tok : String → Nat) (ptk maxTok : Nat)
    (entries : List (String × String)) (c : Cell) (rest : List Cell)
    (dict : SegDict) (terms : List (String × String)) (vals : List String)
    (h : validCell c = false) :
    segGo tok ptk maxTok entries (c :: rest) dict terms vals =
      segGo tok ptk maxTok entries rest dict terms vals := by
  rcases c with ⟨cnt?, v⟩
  cases cnt? with
  | none => rfl
  | some cnt =>
    simp only [validCell, Option.isSome_some, Bool.true_and, decide_eq_false_iff_not,
      Decidable.not_not] at h
    simp only [segGo, h, if_pos rfl]
    rfl

theorem segGo_fit (tok : String → Nat) (ptk maxTok : Nat)
    (entries : List (String × String)) (c : Cell) (rest : List Cell)
    (dict : SegDict) (terms : List (String × String)) (vals : List String)
    (cnt : Int) (hc : c.count = some cnt) (hv : pyStrip c.value ≠ "")
    (hfit : ¬ maxTok < ptk +
      tok (create_segment_output (dictInsert dict cnt (pyStrip c.value)))) :
    segGo tok ptk maxTok entries (c :: rest) dict terms vals =
      segGo tok ptk maxTok entries rest (dictInsert dict cnt (pyStrip c.value))
        (addTerms terms (pyStrip c.value) entries) (vals ++ [pyStrip c.value]) := by
  rcases c with ⟨cnt?, v⟩
  cases hc
  simp only at hv hfit
  simp only [segGo, if_neg hv, if_neg hfit]

theorem segGo_over_empty (tok : String → Nat) (ptk maxTok : Nat)
    (entries : List (String × String)) (c : Cell) (rest : List Cell)
    (terms : List (String × String)) (vals : List String)
    (cnt : Int) (hc : c.count = some cnt) (hv : pyStrip c.value ≠ "")
    (hover : maxTok < ptk +
      tok (create_segment_output (dictInsert [] cnt (pyStrip c.value)))) :
    segGo tok ptk maxTok entries (c :: rest) [] terms vals =
      segGo tok ptk maxTok entries rest (dictInsert [] cnt (pyStrip c.value))
        (addTerms (addTerms terms (pyStrip c.value) entries) (pyStrip c.value) entries)
        (vals ++ [pyStrip c.value]) := by
  rcases c with ⟨cnt?, v⟩
  cases hc
  simp only at hv hover
  simp only [segGo, if_neg hv, if_pos hover]
  simp

theorem segGo_over_flush (tok : String → Nat) (ptk maxTok : Nat)
    (entries : List (String × String)) (c : Cell) (rest : List Cell)
    (dict : SegDict) (terms : List (String × String)) (vals : List String)
    (cnt : Int) (hc : c.count = some cnt) (hv : pyStrip c.value ≠ "")
    (hover : maxTok < ptk +
      tok (create_segment_output (dictInsert dict cnt (pyStrip c.value))))
    (hd : dict ≠ []) :
    segGo tok ptk maxTok entries (c :: rest) dict terms vals =
      ⟨dict, addTerms terms (pyStrip c.value) entries, c :: rest, vals ++ [pyStrip c.value]⟩ ::
        segGo tok ptk maxTok entries rest (dictInsert [] cnt (pyStrip c.value))
          (addTerms [] (pyStrip c.value) entries) [pyStrip c.value] := by
  rcases c with ⟨cnt?, v⟩
  cases hc
  simp only at hv hover
  simp only [segGo, if_neg hv, if_pos hover, if_neg hd]

/-! ### Dictionary lemmas -/

theorem dictKeys_insert_of_mem (d : SegDict) (k : Int) (v : String) (x : Int)
    (h : x ∈ dictKeys d) : x ∈ dictKeys (dictInsert d k v) := by
  induction d with
  | nil => simp [dictKeys] at h
  | cons p rest ih =>
    by_cases hk : p.1 = k
    · simpa [dictInsert, hk, dictKeys] using h
    · simp only [dictKeys, dictInsert, if_neg hk, List.map_cons, List.mem_cons] at h ⊢
      rcases h with h | h
      · exact Or.inl h
      · exact Or.inr (ih h)

theorem dictKeys_insert_self (d : SegDict) (k : Int) (v : String) :
    k ∈ dictKeys (dictInsert d k v) := by
  induction d with
  | nil => simp [dictInsert, dictKeys]
  | cons p rest ih =>
    by_cases hk : p.1 = k
    · simp [dictInsert, hk, dictKeys]
    · simp only [dictInsert, if_neg hk, dictKeys, List.map_cons, List.mem_cons]
      exact Or.inr ih

theorem validCell_elim (c : Cell) (h : validCell c = true) :
    ∃ cnt, c.count = some cnt ∧ pyStrip c.value ≠ "" := by
  rcases c with ⟨cnt?, v⟩
  cases cnt? with
  | none => simp [validCell] at h
  | some cnt =>
    refine ⟨cnt, rfl, ?_⟩
    simpa [validCell] using h

/-! ### Every emitted batch is non-empty -/

theorem segGo_dict_ne_nil (tok : String → Nat) (ptk maxTok : Nat)
    (entries : List (String × String)) :
    ∀ (cells : List Cell) (dict : SegDict) (terms : List (String × String))
      (vals : List String) (s : Seg),
      s ∈ segGo tok ptk maxTok entries cells dict terms vals → s.dict ≠ [] := by
  intro cells
  induction cells with
  | nil =>
    intro dict terms vals s hs
    rw [segGo_nil] at hs
    by_cases hd : dict = []
    · simp [hd] at hs
    · rw [if_neg hd, List.mem_singleton] at hs
      rw [hs]
      exact hd
  | cons c rest ih =>
    intro dict terms vals s hs
    rcases hcnt : c.count with _ | cnt
    · rw [segGo_skip tok ptk maxTok entries c rest dict terms vals
        (by simp [validCell, hcnt])] at hs
      exact ih _ _ _ _ hs
    · by_cases hv : pyStrip c.value = ""
      · rw [segGo_skip tok ptk maxTok entries c rest dict terms vals
          (by simp [validCell, hv])] at hs
        exact ih _ _ _ _ hs
      · by_cases hover : maxTok < ptk +
          tok (create_segment_output (dictInsert dict cnt (pyStrip c.value)))
        · by_cases hd : dict = []
          · subst hd
            rw [segGo_over_empty tok ptk maxTok entries c rest terms vals cnt hcnt hv
              hover] at hs
            exact ih _ _ _ _ hs
          · rw [segGo_over_flush tok ptk maxTok entries c rest dict terms vals cnt hcnt hv
              hover hd] at hs
            rcases List.mem_cons.mp hs with h | h
            · rw [h]; exact hd
            · exact ih _ _ _ _ h
        · rw [segGo_fit tok ptk maxTok entries c rest dict terms vals cnt hcnt hv
            hover] at hs
          exact ih _ _ _ _ hs

/-! ### C1: budget invariant -/

theorem segGo_budget (tok : String → Nat) (ptk maxTok : Nat)
    (entries : List (String × String)) :
    ∀ (cells : List Cell) (dict : SegDict) (terms : List (String × String))
      (vals : List String),
      (dict = [] ∨ dict.length = 1 ∨ ptk + tok (create_segment_output dict) ≤ maxTok) →
      ∀ s ∈ segGo tok ptk maxTok entries cells dict terms vals,
        s.dict.length = 1 ∨ ptk + tok (create_segment_output s.dict) ≤ maxTok := by
  intro cells
  induction cells with
  | nil =>
    intro dict terms vals hinv s hs
    rw [segGo_nil] at hs
    by_cases hd : dict = []
    · simp [hd] at hs
    · rw [if_neg hd, List.mem_singleton] at hs
      rw [hs]
      rcases hinv with h | h
      · exact absurd h hd
      · exact h
  | cons c rest ih =>
    intro dict terms vals hinv s hs
    rcases hcnt : c.count with _ | cnt
    · rw [segGo_skip tok ptk maxTok entries c rest dict terms vals
        (by simp [validCell, hcnt])] at hs
      exact ih _ _ _ hinv s hs
    · by_cases hv : pyStrip c.value = ""
      · rw [segGo_skip tok ptk maxTok entries c rest dict terms vals
          (by simp [validCell, hv])] at hs
        exact ih _ _ _ hinv s hs
      · by_cases hover : maxTok < ptk +
          tok (create_segment_output (dictInsert dict cnt (pyStrip c.value)))
        · by_cases hd : dict = []
          · subst hd
            rw [segGo_over_empty tok ptk maxTok entries c rest terms vals cnt hcnt hv
              hover] at hs
            exact ih _ _ _ (Or.inr (Or.inl (by simp [dictInsert]))) s hs
          · rw [segGo_over_flush tok ptk maxTok entries c rest dict terms vals cnt hcnt hv
              hover hd] at hs
            rcases List.mem_cons.mp hs with h | h
            · rw [h]
              rcases hinv with h' | h'
              · exact absurd h' hd
              · exact h'
            · exact ih _ _ _ (Or.inr (Or.inl (by simp [dictInsert]))) s h
        · rw [segGo_fit tok ptk maxTok entries c rest dict terms vals cnt hcnt hv
            hover] at hs
          exact ih _ _ _ (Or.inr (Or.inr (Nat.not_lt.mp hover))) s hs

/-! ### C1: no unit is refused -/

theorem segGo_key_persists (tok : String → Nat) (ptk maxTok : Nat)
    (entries : List (String × String)) :
    ∀ (cells : List Cell) (dict : SegDict) (terms : List (String × String))
      (vals : List String) (k : Int), k ∈ dictKeys dict →
      ∃ s, s ∈ segGo tok ptk maxTok entries cells dict terms vals ∧ k ∈ dictKeys s.dict := by
  intro cells
  induction cells with
  | nil =>
    intro dict terms vals k hk
    have hd : dict ≠ [] := by
      intro h
      rw [h] at hk
      simp [dictKeys] at hk
    exact ⟨⟨dict, terms, [], vals⟩, by rw [segGo_nil, if_neg hd]; simp, hk⟩
  | cons c rest ih =>
    intro dict terms vals k hk
    rcases hcnt : c.count with _ | cnt
    · rw [segGo_skip tok ptk maxTok entries c rest dict terms vals
        (by simp [validCell, hcnt])]
      exact ih _ _ _ _ hk
    · by_cases hv : pyStrip c.value = ""
      · rw [segGo_skip tok ptk maxTok entries c rest dict terms vals
          (by simp [validCell, hv])]
        exact ih _ _ _ _ hk
      · by_cases hover : maxTok < ptk +
          tok (create_segment_output (dictInsert dict cnt (pyStrip c.value)))
        · by_cases hd : dict = []
          · rw [hd] at hk
            simp [dictKeys] at hk
          · rw [segGo_over_flush tok ptk maxTok entries c rest dict terms vals cnt hcnt hv
              hover hd]
            exact ⟨⟨dict, addTerms terms (pyStrip c.value) entries, c :: rest,
              vals ++ [pyStrip c.value]⟩, List.mem_cons_self _ _, hk⟩
        · rw [segGo_fit tok ptk maxTok entries c rest dict terms vals cnt hcnt hv hover]
          exact ih _ _ _ _ (dictKeys_insert_of_mem dict cnt (pyStrip c.value) k hk)

theorem segGo_covers (tok : String → Nat) (ptk maxTok : Nat)
    (entries : List (String × String)) :
    ∀ (cells : List Cell) (dict : SegDict) (terms : List (String × String))
      (vals : List String) (c : Cell), c ∈ cells → validCell c = true →
      ∃ s, s ∈ segGo tok ptk maxTok entries cells dict terms vals ∧
        cellCount c ∈ dictKeys s.dict := by
  intro cells
  induction cells with
  | nil =>
    intro dict terms vals c hc
    simp at hc
  | cons c0 rest ih =>
    intro dict terms vals c hc hvalid
    rcases List.mem_cons.mp hc with rfl | hmem
    · rcases validCell_elim c hvalid with ⟨cnt, hcnt, hv⟩
      have hcc : cellCount c = cnt := by simp [cellCount, hcnt]
      by_cases hover : maxTok < ptk +
          tok (create_segment_output (dictInsert dict cnt (pyStrip c.value)))
      · by_cases hd : dict = []
        · subst hd
          rw [segGo_over_empty tok ptk maxTok entries c rest terms vals cnt hcnt hv hover]
          rw [hcc]
          exact segGo_key_persists tok ptk maxTok entries rest _ _ _ cnt
            (dictKeys_insert_self [] cnt (pyStrip c.value))
        · rw [segGo_over_flush tok ptk maxTok entries c rest dict terms vals cnt hcnt hv
            hover hd]
          rcases segGo_key_persists tok ptk maxTok entries rest
              (dictInsert [] cnt (pyStrip c.value)) (addTerms [] (pyStrip c.value) entries)
              [pyStrip c.value] cnt (dictKeys_insert_self [] cnt (pyStrip c.value)) with
            ⟨s, hs, hks⟩
          exact ⟨s, List.mem_cons_of_mem _ hs, by rw [hcc]; exact hks⟩
      · rw [segGo_fit tok ptk maxTok entries c rest dict terms vals cnt hcnt hv hover]
        rw [hcc]
        exact segGo_key_persists tok ptk maxTok entries rest _ _ _ cnt
          (dictKeys_insert_self dict cnt (pyStrip c.value))
    · rcases hcnt : c0.count with _ | cnt
      · rw [segGo_skip tok ptk maxTok entries c0 rest dict terms vals
          (by simp [validCell, hcnt])]
        exact ih _ _ _ _ hmem hvalid
      · by_cases hv : pyStrip c0.value = ""
        · rw [segGo_skip tok ptk maxTok entries c0 rest dict terms vals
            (by simp [validCell, hv])]
          exact ih _ _ _ _ hmem hvalid
        · by_cases hover : maxTok < ptk +
            tok (create_segment_output (dictInsert dict cnt (pyStrip c0.value)))
          · by_cases hd : dict = []
            · subst hd
              rw [segGo_over_empty tok ptk maxTok entries c0 rest terms vals cnt hcnt hv
                hover]
              exact ih _ _ _ _ hmem hvalid
            · rw [segGo_over_flush tok ptk maxTok entries c0 rest dict terms vals cnt hcnt
                hv hover hd]
              rcases ih (dictInsert [] cnt (pyStrip c0.value))
                  (addTerms [] (pyStrip c0.value) entries) [pyStrip c0.value] c hmem hvalid
                with ⟨s, hs, hks⟩
              exact ⟨s, List.mem_cons_of_mem _ hs, hks⟩
          · rw [segGo_fit tok ptk maxTok entries c0 rest dict terms vals cnt hcnt hv hover]
            exact ih _ _ _ _ hmem hvalid

/-- C1 (amended): every emitted batch is non-empty and its serialized token
count (fixed prompt overhead plus the fenced-JSON rendering of its entries)
is at most `maxTok` **unless** the batch consists of exactly one entry — the
case of a unit whose own rendering already exceeds the budget, which is still
emitted as its own batch; moreover no valid unit is refused: every valid
unit's identity occurs in some emitted batch. -/
theorem C1_budget_theorem (tok : String → Nat) (prompts : List String) (maxTok : Nat)
    (entries : List (String × String)) (cells : List Cell) :
    (∀ s ∈ segRun tok prompts maxTok entries cells,
        s.dict ≠ [] ∧
          (prompt_token_count tok prompts + tok (create_segment_output s.dict) ≤ maxTok ∨
            s.dict.length = 1)) ∧
      (∀ c ∈ cells, validCell c = true →
        ∃ s, s ∈ segRun tok prompts maxTok entries cells ∧
          cellCount c ∈ dictKeys s.dict) := by
  constructor
  · intro s hs
    refine ⟨segGo_dict_ne_nil tok _ maxTok entries cells [] [] [] s hs, ?_⟩
    rcases segGo_budget tok _ maxTok entries cells [] [] [] (Or.inl rfl) s hs with h | h
    · exact Or.inr h
    · exact Or.inl h
  · intro c hc hv
    exact segGo_covers tok _ maxTok entries cells [] [] [] c hc hv

/-- C1 counterexample: with a per-character token oracle, empty prompts and
budget 5, each of the two units renders alone above the budget; both are
still emitted, each as its own batch, and the first emitted batch's
serialized token count (37) exceeds the budget — refuting the unconditional
`tokenCount(serialize(batch)) ≤ maxToken` part of the claim. -/
theorem C1_counterexample :
    (segRun charCount ["", "", "", ""] 5 []
        [⟨some 1, "aaaaaaaaaa"⟩, ⟨some 2, "bbbbbbbbbb"⟩]).map (fun s => s.dict) =
      [[(1, "aaaaaaaaaa")], [(2, "bbbbbbbbbb")]] ∧
    5 < prompt_token_count charCount ["", "", "", ""] +
      charCount (create_segment_output [(1, "aaaaaaaaaa")]) := by
  exact ⟨by decide, by decide⟩

/-- Witness for C1 at a concrete input: the valid unit `{count 1, "aaaa"}` is
covered by an emitted batch. -/
theorem C1_budget_theorem_witness :
    ∃ s, s ∈ segRun charCount ["", "", "", ""] 25 []
        [⟨some 1, "aaaa"⟩, ⟨some 2, "bbbb"⟩] ∧
      cellCount ⟨some 1, "aaaa"⟩ ∈ dictKeys s.dict :=
  (C1_budget_theorem charCount ["", "", "", ""] 25 []
    [⟨some 1, "aaaa"⟩, ⟨some 2, "bbbb"⟩]).2 ⟨some 1, "aaaa"⟩ (by decide) (by decide)

/-! ### C5: idempotent resume -/

theorem addPairs_mem :
    ∀ (l t : List (String × String)) (x : String × String),
      x ∈ addPairs t l ↔ x ∈ t ∨ x ∈ l := by
  intro l
  induction l with
  | nil => simp [addPairs]
  | cons p rest ih =>
    intro t x
    simp only [addPairs, List.foldl_cons]
    by_cases hp : p ∈ t
    · rw [if_pos hp]
      rw [show List.foldl (fun acc q => if q ∈ acc then acc else acc ++ [q]) t rest =
        addPairs t rest from rfl, ih]
      simp only [List.mem_cons]
      constructor
      · rintro (h | h)
        · exact Or.inl h
        · exact Or.inr (Or.inr h)
      · rintro (h | rfl | h)
        · exact Or.inl h
        · exact Or.inl hp
        · exact Or.inr h
    · rw [if_neg hp]
      rw [show List.foldl (fun acc q => if q ∈ acc then acc else acc ++ [q]) (t ++ [p]) rest =
        addPairs (t ++ [p]) rest from rfl, ih]
      simp only [List.mem_append, List.mem_singleton, List.mem_cons]
      tauto

theorem addPairs_absorb :
    ∀ (l t : List (String × String)), (∀ p ∈ l, p ∈ t) → addPairs t l = t := by
  intro l
  induction l with
  | nil => intro t _; rfl
  | cons p rest ih =>
    intro t hsub
    simp only [addPairs, List.foldl_cons, if_pos (hsub p (List.mem_cons_self p rest))]
    exact ih t (fun q hq => hsub q (List.mem_cons_of_mem p hq))

/-- Accumulating the same value's terms twice is a no-op the second time. -/
theorem addTerms_idem (t : List (String × String)) (v : String)
    (entries : List (String × String)) :
    addTerms (addTerms t v entries) v entries = addTerms t v entries := by
  unfold addTerms
  apply addPairs_absorb
  intro p hp
  rw [addPairs_mem]
  exact Or.inr hp

/-- After any yield, the remaining emissions coincide with a fresh generator
run over the working-copy file persisted at that yield. -/
theorem segGo_tail (tok : String → Nat) (ptk maxTok : Nat)
    (entries : List (String × String)) :
    ∀ (cells : List Cell) (dict : SegDict) (terms : List (String × String))
      (vals : List String) (i : Nat) (s : Seg),
      (segGo tok ptk maxTok entries cells dict terms vals)[i]? = some s →
      (segGo tok ptk maxTok entries cells dict terms vals).drop (i + 1) =
        segGo tok ptk maxTok entries s.fileAfter [] [] [] := by
  intro cells
  induction cells with
  | nil =>
    intro dict terms vals i s hs
    by_cases hd : dict = []
    · rw [segGo_nil, if_pos hd] at hs ⊢
      simp at hs
    · rw [segGo_nil, if_neg hd] at hs ⊢
      match i with
      | 0 =>
        simp only [List.getElem?_cons_zero, Option.some_inj] at hs
        subst hs
        simp [segGo_nil]
      | Nat.succ j =>
        simp at hs
  | cons c rest ih =>
    intro dict terms vals i s hs
    rcases hcnt : c.count with _ | cnt
    · rw [segGo_skip tok ptk maxTok entries c rest dict terms vals
        (by simp [validCell, hcnt])] at hs ⊢
      exact ih _ _ _ i s hs
    · by_cases hv : pyStrip c.value = ""
      · rw [segGo_skip tok ptk maxTok entries c rest dict terms vals
          (by simp [validCell, hv])] at hs ⊢
        exact ih _ _ _ i s hs
      · by_cases hover : maxTok < ptk +
          tok (create_segment_output (dictInsert dict cnt (pyStrip c.value)))
        · by_cases hd : dict = []
          · subst hd
            rw [segGo_over_empty tok ptk maxTok entries c rest terms vals cnt hcnt hv
              hover] at hs ⊢
            exact ih _ _ _ i s hs
          · rw [segGo_over_flush tok ptk maxTok entries c rest dict terms vals cnt hcnt hv
              hover hd] at hs ⊢
            match i with
            | 0 =>
              simp only [List.getElem?_cons_zero, Option.some_inj] at hs
              subst hs
              simp only [List.drop_succ_cons, List.drop_zero]
              have hrhs : segGo tok ptk maxTok entries (c :: rest) [] [] [] =
                  segGo tok ptk maxTok entries rest
                    (dictInsert [] cnt (pyStrip c.value))
                    (addTerms [] (pyStrip c.value) entries) [pyStrip c.value] := by
                by_cases hover2 : maxTok < ptk +
                    tok (create_segment_output (dictInsert [] cnt (pyStrip c.value)))
                · rw [segGo_over_empty tok ptk maxTok entries c rest [] [] cnt hcnt hv
                    hover2, addTerms_idem]
                  simp
                · rw [segGo_fit tok ptk maxTok entries c rest [] [] [] cnt hcnt hv hover2]
                  simp
              rw [hrhs]
            | Nat.succ j =>
              simp only [List.getElem?_cons_succ] at hs
              simp only [List.drop_succ_cons]
              exact ih _ _ _ j s hs
        · rw [segGo_fit tok ptk maxTok entries c rest dict terms vals cnt hcnt hv
            hover] at hs ⊢
          exact ih _ _ _ i s hs

/-- A second invocation against a persisted working state yields exactly the
fresh-generator run over that state (an empty persisted state raises the
empty-input error and yields nothing). -/
theorem streamBatches_resume (tok : String → Nat) (prompts : List String)
    (maxTok : Nat) (entries : List (String × String)) (origFile w : List Cell) :
    streamBatches (stream_segment_json tok prompts maxTok entries origFile (some w)) =
      segGo tok (prompt_token_count tok prompts) maxTok entries w [] [] [] := by
  by_cases hw : w = []
  · subst hw
    simp [stream_segment_json, streamBatches, segGo_nil]
  · simp [stream_segment_json, streamBatches, hw]

/-- C5: interrupting a run after any yield and re-invoking the segmenter
against the persisted WorkingState continues instead of restarting: the
batches emitted before the interruption followed by the batches of the
resumed invocation are, by dictionary content, exactly the batches of the
uninterrupted run — no identity re-emitted, none skipped. -/
theorem C5_resume (tok : String → Nat) (prompts : List String) (maxTok : Nat)
    (entries : List (String × String)) (cells : List Cell) (i : Nat) (s : Seg)
    (h : (segRun tok prompts maxTok entries cells)[i]? = some s) :
    ((segRun tok prompts maxTok entries cells).take (i + 1)).map (fun x => x.dict) ++
      (streamBatches (stream_segment_json tok prompts maxTok entries cells
        (some s.fileAfter))).map (fun x => x.dict) =
      (segRun tok prompts maxTok entries cells).map (fun x => x.dict) := by
  rw [streamBatches_resume]
  unfold segRun at h ⊢
  rw [← segGo_tail tok (prompt_token_count tok prompts) maxTok entries cells [] [] [] i s h]
  rw [← List.map_append, List.take_append_drop]

/-- Witness for C5: a two-batch run interrupted after the first batch; the
persisted state holds exactly the second unit and the resumed run emits it. -/
theorem C5_resume_witness :
    ((segRun charCount ["", "", "", ""] 25 []
        [⟨some 1, "aaaa"⟩, ⟨some 2, "bbbb"⟩]).take 1).map (fun x => x.dict) ++
      (streamBatches (stream_segment_json charCount ["", "", "", ""] 25 []
        [⟨some 1, "aaaa"⟩, ⟨some 2, "bbbb"⟩]
        (some (Seg.mk [(1, "aaaa")] [] [⟨some 2, "bbbb"⟩] ["aaaa", "bbbb"]).fileAfter))).map
        (fun x => x.dict) =
      (segRun charCount ["", "", "", ""] 25 []
        [⟨some 1, "aaaa"⟩, ⟨some 2, "bbbb"⟩]).map (fun x => x.dict) :=
  C5_resume charCount ["", "", "", ""] 25 [] [⟨some 1, "aaaa"⟩, ⟨some 2, "bbbb"⟩] 0
    (Seg.mk [(1, "aaaa")] [] [⟨some 2, "bbbb"⟩] ["aaaa", "bbbb"]) (by decide)

/-! ### C6: glossary terms per batch -/

theorem termsOfVals_append (entries : List (String × String)) (vals : List String)
    (v : String) :
    termsOfVals entries (vals ++ [v]) = addTerms (termsOfVals entries vals) v entries := by
  simp [termsOfVals, List.foldl_append]

/-- The per-segment term list always equals the accumulated matches over the
scanned values recorded in `vals`. -/
theorem segGo_terms (tok : String → Nat) (ptk maxTok : Nat)
    (entries : List (String × String)) :
    ∀ (cells : List Cell) (dict : SegDict) (terms : List (String × String))
      (vals : List String), terms = termsOfVals entries vals →
      ∀ s ∈ segGo tok ptk maxTok entries cells dict terms vals,
        s.terms = termsOfVals entries s.vals := by
  intro cells
  induction cells with
  | nil =>
    intro dict terms vals hterms s hs
    rw [segGo_nil] at hs
    by_cases hd : dict = []
    · simp [hd] at hs
    · rw [if_neg hd, List.mem_singleton] at hs
      rw [hs]
      exact hterms
  | cons c rest ih =>
    intro dict terms vals hterms s hs
    rcases hcnt : c.count with _ | cnt
    · rw [segGo_skip tok ptk maxTok entries c rest dict terms vals
        (by simp [validCell, hcnt])] at hs
      exact ih _ _ _ hterms s hs
    · by_cases hv : pyStrip c.value = ""
      · rw [segGo_skip tok ptk maxTok entries c rest dict terms vals
          (by simp [validCell, hv])] at hs
        exact ih _ _ _ hterms s hs
      · by_cases hover : maxTok < ptk +
          tok (create_segment_output (dictInsert dict cnt (pyStrip c.value)))
        · by_cases hd : dict = []
          · subst hd
            rw [segGo_over_empty tok ptk maxTok entries c rest terms vals cnt hcnt hv
              hover] at hs
            refine ih _ _ _ ?_ s hs
            rw [hterms, termsOfVals_append, addTerms_idem]
          · rw [segGo_over_flush tok ptk maxTok entries c rest dict terms vals cnt hcnt hv
              hover hd] at hs
            rcases List.mem_cons.mp hs with h | h
            · rw [h]
              show addTerms terms (pyStrip c.value) entries =
                termsOfVals entries (vals ++ [pyStrip c.value])
              rw [hterms, termsOfVals_append]
            · exact ih _ _ _ (show addTerms [] (pyStrip c.value) entries =
                termsOfVals entries [pyStrip c.value] from rfl) s h
        · rw [segGo_fit tok ptk maxTok entries c rest dict terms vals cnt hcnt hv
            hover] at hs
          refine ih _ _ _ ?_ s hs
          rw [hterms, termsOfVals_append]

theorem dedupKeys_go_mem (x : String) :
    ∀ (entries : List (String × String)) (acc : List String),
      x ∈ entries.foldl (fun a p => if p.1 ∈ a then a else a ++ [p.1]) acc ↔
        x ∈ acc ∨ x ∈ entries.map Prod.fst := by
  intro entries
  induction entries with
  | nil => simp
  | cons p rest ih =>
    intro acc
    simp only [List.foldl_cons, List.map_cons, List.mem_cons]
    by_cases hp : p.1 ∈ acc
    · rw [if_pos hp, ih]
      constructor
      · rintro (h | h)
        · exact Or.inl h
        · exact Or.inr (Or.inr h)
      · rintro (h | h | h)
        · exact Or.inl h
        · rw [h]; exact Or.inl hp
        · exact Or.inr h
    · rw [if_neg hp, ih]
      simp only [List.mem_append, List.mem_singleton]
      tauto

theorem mem_dedupKeys (entries : List (String × String)) (x : String) :
    x ∈ dedupKeys entries ↔ x ∈ entries.map Prod.fst := by
  rw [dedupKeys, dedupKeys_go_mem]
  simp

theorem dedupKeys_go_nodup :
    ∀ (entries : List (String × String)) (acc : List String), acc.Nodup →
      (entries.foldl (fun a p => if p.1 ∈ a then a else a ++ [p.1]) acc).Nodup := by
  intro entries
  induction entries with
  | nil => intro acc h; exact h
  | cons p rest ih =>
    intro acc hacc
    simp only [List.foldl_cons]
    by_cases hp : p.1 ∈ acc
    · rw [if_pos hp]; exact ih acc hacc
    · rw [if_neg hp]
      refine ih _ ?_
      simpa [List.nodup_append] using ⟨hacc, hp⟩

theorem dedupKeys_nodup (entries : List (String × String)) :
    (dedupKeys entries).Nodup :=
  dedupKeys_go_nodup entries [] List.nodup_nil

theorem insStable_perm {α : Type} (le : α → α → Bool) (x : α) :
    ∀ l : List α, (insStable le x l).Perm (x :: l) := by
  intro l
  induction l with
  | nil => exact List.Perm.refl _
  | cons y ys ih =>
    by_cases h : le x y
    · rw [insStable, if_pos h]
    · rw [insStable, if_neg h]
      exact ((ih.cons y).trans (List.Perm.swap x y ys))

theorem sortStable_perm {α : Type} (le : α → α → Bool) :
    ∀ l : List α, (sortStable le l).Perm l := by
  intro l
  induction l with
  | nil => exact List.Perm.refl _
  | cons y ys ih =>
    exact (insStable_perm le y (sortStable le ys)).trans (ih.cons y)

theorem ftGo_fst_sublist (text : String) (entries : List (String × String)) :
    ∀ (terms found : List String),
      ((ftGo text entries terms found).map Prod.fst).Sublist terms := by
  intro terms
  induction terms with
  | nil => intro found; simp [ftGo]
  | cons t rest ih =>
    intro found
    rw [ftGo]
    by_cases hcond : strHasSub text t && !(found.contains t)
    · rw [if_pos hcond]
      simpa using (ih (found ++ [t])).cons₂ t
    · rw [if_neg hcond]
      exact (ih found).cons t

/-- Membership characterisation of the matcher scan loop. -/
theorem ftGo_mem (text : String) (entries : List (String × String)) :
    ∀ (terms found : List String), terms.Nodup → (∀ t ∈ terms, t ∉ found) →
      ∀ p : String × String,
        p ∈ ftGo text entries terms found ↔
          p.1 ∈ terms ∧ strHasSub text p.1 = true ∧ p.2 = lastLookup entries p.1 := by
  intro terms
  induction terms with
  | nil =>
    intro found _ _ p
    simp [ftGo]
  | cons t rest ih =>
    intro found hnodup hdisj p
    have hnf : found.contains t = false := by
      have := hdisj t (List.mem_cons_self t rest)
      simpa using this
    rw [ftGo]
    rcases List.nodup_cons.mp hnodup with ⟨htrest, hrestnodup⟩
    by_cases hsub : strHasSub text t
    · rw [if_pos (by rw [hsub, hnf]; rfl)]
      have ihr := ih (found ++ [t]) hrestnodup ?_ p
      · rw [List.mem_cons, ihr]
        simp only [List.mem_cons]
        constructor
        · rintro (rfl | ⟨h1, h2, h3⟩)
          · exact ⟨Or.inl rfl, hsub, rfl⟩
          · exact ⟨Or.inr h1, h2, h3⟩
        · rintro ⟨h1 | h1, h2, h3⟩
          · left
            have : p = (p.1, p.2) := rfl
            rw [this, h1, h3, h1]
          · exact Or.inr ⟨h1, h2, h3⟩
      · intro u hu
        simp only [List.mem_append, List.mem_singleton]
        rintro (hf | rfl)
        · exact hdisj u (List.mem_cons_of_mem t hu) hf
        · exact htrest hu
    · rw [if_neg (by simp [Bool.and_eq_true, hsub])]
      rw [ih found hrestnodup (fun u hu => hdisj u (List.mem_cons_of_mem t hu)) p]
      simp only [List.mem_cons]
      constructor
      · rintro ⟨h1, h2, h3⟩
        exact ⟨Or.inr h1, h2, h3⟩
      · rintro ⟨h1 | h1, h2, h3⟩
        · rw [h1] at h2
          rw [h2] at hsub
          exact absurd rfl hsub
        · exact ⟨h1, h2, h3⟩

/-- Membership characterisation of `find_terms_with_hashtable`: a pair is
reported iff its source term is a glossary source term occurring as a literal
substring of the text, and its target is the term-dictionary value (last
occurrence wins). -/
theorem find_terms_mem (text : String) (entries : List (String × String))
    (p : String × String) :
    p ∈ find_terms_with_hashtable text entries ↔
      p.1 ∈ entries.map Prod.fst ∧ strHasSub text p.1 = true ∧
        p.2 = lastLookup entries p.1 := by
  unfold find_terms_with_hashtable
  have hperm := sortStable_perm lenDescLe (dedupKeys entries)
  have hnodup : (sortStable lenDescLe (dedupKeys entries)).Nodup :=
    hperm.nodup_iff.mpr (dedupKeys_nodup entries)
  rw [ftGo_mem text entries _ [] hnodup (by simp)]
  rw [show ∀ x, (x ∈ sortStable lenDescLe (dedupKeys entries)) = (x ∈ dedupKeys entries)
    from fun x => propext (hperm.mem_iff), mem_dedupKeys]

theorem termsOfVals_go_mem (entries : List (String × String)) (p : String × String) :
    ∀ (vals : List String) (t : List (String × String)),
      p ∈ vals.foldl (fun acc v => addTerms acc v entries) t ↔
        p ∈ t ∨ ∃ v ∈ vals, p ∈ find_terms_with_hashtable v entries := by
  intro vals
  induction vals with
  | nil => simp
  | cons v rest ih =>
    intro t
    simp only [List.foldl_cons]
    rw [ih]
    unfold addTerms
    rw [addPairs_mem]
    simp only [List.mem_cons]
    constructor
    · rintro ((h | h) | ⟨w, hw, hpw⟩)
      · exact Or.inl h
      · exact Or.inr ⟨v, Or.inl rfl, h⟩
      · exact Or.inr ⟨w, Or.inr hw, hpw⟩
    · rintro (h | ⟨w, hw | hw, hpw⟩)
      · exact Or.inl (Or.inl h)
      · rw [hw] at hpw
        exact Or.inl (Or.inr hpw)
      · exact Or.inr ⟨w, hw, hpw⟩

theorem termsOfVals_mem (entries : List (String × String)) (vals : List String)
    (p : String × String) :
    p ∈ termsOfVals entries vals ↔
      ∃ v ∈ vals, p ∈ find_terms_with_hashtable v entries := by
  rw [termsOfVals, termsOfVals_go_mem]
  simp

theorem addPairs_nodup (l t : List (String × String)) (h : t.Nodup) :
    (addPairs t l).Nodup := by
  induction l generalizing t with
  | nil => exact h
  | cons p rest ih =>
    simp only [addPairs, List.foldl_cons]
    by_cases hp : p ∈ t
    · rw [if_pos hp]
      exact ih t h
    · rw [if_neg hp]
      refine ih _ ?_
      simpa [List.nodup_append] using ⟨h, hp⟩

theorem termsOfVals_nodup (entries : List (String × String)) (vals : List String) :
    (termsOfVals entries vals).Nodup := by
  suffices h : ∀ t : List (String × String), t.Nodup →
      (vals.foldl (fun acc v => addTerms acc v entries) t).Nodup by
    exact h [] List.nodup_nil
  induction vals with
  | nil => intro t h; exact h
  | cons v rest ih =>
    intro t h
    simp only [List.foldl_cons]
    exact ih _ (addPairs_nodup _ _ h)

/-- C6 (amended): the glossary-term sequence yielded with a batch consists
exactly of the pairs `(src, term_dict[src])` whose source term occurs as a
literal substring of one of the values scanned into that batch, deduplicated
by source term (the term list is reset at each flush).  The scanned values
(`s.vals`) are the trimmed values of the batch's entries **plus, for a batch
flushed on overflow, the value of the overflowing unit that seeds the next
batch** — the source accumulates that unit's terms before the budget check,
so a term matched only in the next batch's first unit is also carried. -/
theorem C6_terms_theorem (tok : String → Nat) (prompts : List String) (maxTok : Nat)
    (entries : List (String × String)) (cells : List Cell) (s : Seg)
    (hs : s ∈ segRun tok prompts maxTok entries cells) :
    ((s.terms.map Prod.fst).Nodup) ∧
      ∀ p : String × String,
        p ∈ s.terms ↔ p.1 ∈ entries.map Prod.fst ∧
          p.2 = lastLookup entries p.1 ∧
          ∃ v ∈ s.vals, strHasSub v p.1 = true := by
  have hterms : s.terms = termsOfVals entries s.vals :=
    segGo_terms tok _ maxTok entries cells [] [] [] rfl s hs
  have hchar : ∀ p : String × String, p ∈ s.terms ↔ p.1 ∈ entries.map Prod.fst ∧
      p.2 = lastLookup entries p.1 ∧ ∃ v ∈ s.vals, strHasSub v p.1 = true := by
    intro p
    rw [hterms, termsOfVals_mem]
    constructor
    · rintro ⟨v, hv, hpv⟩
      rcases (find_terms_mem v entries p).mp hpv with ⟨h1, h2, h3⟩
      exact ⟨h1, h3, v, hv, h2⟩
    · rintro ⟨h1, h3, v, hv, h2⟩
      exact ⟨v, hv, (find_terms_mem v entries p).mpr ⟨h1, h2, h3⟩⟩
  refine ⟨?_, hchar⟩
  rw [hterms]
  refine List.Nodup.map_on ?_ (termsOfVals_nodup entries s.vals)
  intro x hx y hy hxy
  rw [← hterms] at hx hy
  rcases (hchar x).mp hx with ⟨_, hx2, _⟩
  rcases (hchar y).mp hy with ⟨_, hy2, _⟩
  have : x = (x.1, x.2) := rfl
  rw [this, hx2, hxy, ← hy2]

/-- C6 counterexample: with glossary `[("zz","ZZ")]`, a run whose first batch
holds only `{1: "aaaa"}` still yields the pair `("zz","ZZ")` with that batch,
although `"zz"` occurs in no value of the batch — it occurs only in the unit
`{2: "zz"}` that overflowed into the second batch. -/
theorem C6_counterexample :
    (segRun charCount ["", "", "", ""] 30 [("zz", "ZZ")]
        [⟨some 1, "aaaa"⟩, ⟨some 2, "zz"⟩]).map (fun s => (s.dict, s.terms)) =
      [([(1, "aaaa")], [("zz", "ZZ")]), ([(2, "zz")], [("zz", "ZZ")])] ∧
      strHasSub "aaaa" "zz" = false := by
  exact ⟨by decide, by decide⟩

/-- Witness for C6: the term list of the first batch of a concrete run has
no duplicated source terms. -/
theorem C6_terms_theorem_witness :
    (((Seg.mk [(1, "aaaa")] [("zz", "ZZ")] [⟨some 2, "zz"⟩]
        ["aaaa", "zz"]).terms.map Prod.fst).Nodup) :=
  (C6_terms_theorem charCount ["", "", "", ""] 30 [("zz", "ZZ")]
    [⟨some 1, "aaaa"⟩, ⟨some 2, "zz"⟩]
    (Seg.mk [(1, "aaaa")] [("zz", "ZZ")] [⟨some 2, "zz"⟩] ["aaaa", "zz"])
    (by decide)).1

/-! ### C7: progress monotonicity -/

theorem dictInsert_ne_nil (d : SegDict) (k : Int) (v : String) :
    dictInsert d k v ≠ [] := by
  cases d with
  | nil => simp [dictInsert]
  | cons p rest =>
    by_cases h : p.1 = k <;> simp [dictInsert, h]

theorem mem_dictInsert (d : SegDict) (k : Int) (v : String) :
    ∀ p ∈ dictInsert d k v, p.1 = k ∨ p ∈ d := by
  induction d with
  | nil =>
    intro p hp
    simp only [dictInsert, List.mem_singleton] at hp
    rw [hp]
    exact Or.inl rfl
  | cons q rest ih =>
    intro p hp
    by_cases h : q.1 = k
    · rw [dictInsert, if_pos h] at hp
      rcases List.mem_cons.mp hp with rfl | hp2
      · exact Or.inl h
      · exact Or.inr (List.mem_cons_of_mem q hp2)
    · rw [dictInsert, if_neg h] at hp
      rcases List.mem_cons.mp hp with rfl | hp2
      · exact Or.inr (List.mem_cons_self q rest)
      · rcases ih p hp2 with h3 | h3
        · exact Or.inl h3
        · exact Or.inr (List.mem_cons_of_mem q h3)

theorem foldl_max_init_le : ∀ (l : SegDict) (a : Int),
    a ≤ l.foldl (fun m q => max m q.1) a := by
  intro l
  induction l with
  | nil => intro a; exact le_refl a
  | cons q rest ih =>
    intro a
    simp only [List.foldl_cons]
    exact le_trans (le_max_left a q.1) (ih (max a q.1))

theorem foldl_max_mem_le : ∀ (l : SegDict) (a : Int) (p : Int × String), p ∈ l →
    p.1 ≤ l.foldl (fun m q => max m q.1) a := by
  intro l
  induction l with
  | nil => intro a p hp; simp at hp
  | cons q rest ih =>
    intro a p hp
    simp only [List.foldl_cons]
    rcases List.mem_cons.mp hp with rfl | hp2
    · exact le_trans (le_max_right a p.1) (foldl_max_init_le rest (max a p.1))
    · exact ih (max a q.1) p hp2

theorem foldl_max_le : ∀ (l : SegDict) (a B : Int), a ≤ B → (∀ p ∈ l, p.1 ≤ B) →
    l.foldl (fun m q => max m q.1) a ≤ B := by
  intro l
  induction l with
  | nil => intro a B ha _; exact ha
  | cons q rest ih =>
    intro a B ha hB
    simp only [List.foldl_cons]
    exact ih (max a q.1) B (max_le ha (hB q (List.mem_cons_self q rest)))
      (fun p hp => hB p (List.mem_cons_of_mem q hp))

theorem le_maxKeyInt (d : SegDict) (p : Int × String) (hp : p ∈ d) :
    p.1 ≤ maxKeyInt d := by
  cases d with
  | nil => simp at hp
  | cons q rest =>
    rw [maxKeyInt]
    rcases List.mem_cons.mp hp with rfl | hp2
    · exact foldl_max_init_le rest p.1
    · exact foldl_max_mem_le rest q.1 p hp2

theorem maxKeyInt_le (d : SegDict) (B : Int) (hd : d ≠ []) (h : ∀ p ∈ d, p.1 ≤ B) :
    maxKeyInt d ≤ B := by
  cases d with
  | nil => exact absurd rfl hd
  | cons q rest =>
    rw [maxKeyInt]
    exact foldl_max_le rest q.1 B (h q (List.mem_cons_self q rest))
      (fun p hp => h p (List.mem_cons_of_mem q hp))

theorem maxKeyInt_eq_of_mem_bound (d : SegDict) (k : Int)
    (hk : k ∈ dictKeys d) (h : ∀ p ∈ d, p.1 ≤ k) : maxKeyInt d = k := by
  rcases List.mem_map.mp hk with ⟨p, hp, hpk⟩
  have hd : d ≠ [] := by
    intro hnil
    rw [hnil] at hp
    simp at hp
  refine le_antisymm (maxKeyInt_le d k hd h) ?_
  rw [← hpk]
  exact le_maxKeyInt d p hp

theorem calculate_progress_mono (d1 d2 : SegDict) (mc : Int)
    (h1 : d1 ≠ []) (h2 : d2 ≠ []) (h : maxKeyInt d1 ≤ maxKeyInt d2) :
    calculate_progress d1 mc ≤ calculate_progress d2 mc := by
  unfold calculate_progress
  rw [if_neg h1, if_neg h2]
  by_cases hmc : 0 < mc
  · rw [if_pos hmc, if_pos hmc]
    have hqc : (0 : ℚ) < (mc : ℚ) := by exact_mod_cast hmc
    exact (div_le_div_iff_of_pos_right hqc).mpr (by exact_mod_cast h)
  · rw [if_neg hmc, if_neg hmc]

theorem calculate_progress_eq_one (d : SegDict) (mc : Int)
    (hd : d ≠ []) (h : maxKeyInt d = mc) : calculate_progress d mc = 1 := by
  unfold calculate_progress
  rw [if_neg hd]
  by_cases hmc : 0 < mc
  · rw [if_pos hmc, h]
    have : (mc : ℚ) ≠ 0 := by
      exact_mod_cast ne_of_gt hmc
    exact div_self this
  · rw [if_neg hmc]

/-- Emitted-batch maximum identities are monotone along a run over cells with
strictly increasing counts. -/
theorem segGo_maxkey_mono (tok : String → Nat) (ptk maxTok : Nat)
    (entries : List (String × String)) :
    ∀ (cells : List Cell) (dict : SegDict) (terms : List (String × String))
      (vals : List String),
      List.Pairwise (· < ·) (cells.map cellCount) →
      (∀ p ∈ dict, ∀ c ∈ cells, p.1 < cellCount c) →
      List.Chain' (fun s1 s2 => maxKeyInt s1.dict ≤ maxKeyInt s2.dict)
          (segGo tok ptk maxTok entries cells dict terms vals) ∧
        ∀ s, (segGo tok ptk maxTok entries cells dict terms vals).head? = some s →
          dict ≠ [] → maxKeyInt dict ≤ maxKeyInt s.dict := by
  intro cells
  induction cells with
  | nil =>
    intro dict terms vals _ _
    by_cases hd : dict = []
    · rw [segGo_nil, if_pos hd]
      exact ⟨List.chain'_nil, by simp⟩
    · rw [segGo_nil, if_neg hd]
      refine ⟨List.chain'_singleton _, ?_⟩
      intro s hs _
      simp only [List.head?_cons, Option.some_inj] at hs
      rw [← hs]
  | cons c rest ih =>
    intro dict terms vals hpw hdict
    have hpwrest : List.Pairwise (· < ·) (rest.map cellCount) :=
      (List.pairwise_cons.mp (by simpa using hpw)).2
    have hheadlt : ∀ c' ∈ rest, cellCount c < cellCount c' := by
      intro c' hc'
      exact (List.pairwise_cons.mp (by simpa using hpw)).1 (cellCount c')
        (List.mem_map_of_mem cellCount hc')
    rcases hcnt : c.count with _ | cnt
    · rw [segGo_skip tok ptk maxTok entries c rest dict terms vals
        (by simp [validCell, hcnt])]
      exact ih _ _ _ hpwrest
        (fun p hp c' hc' => hdict p hp c' (List.mem_cons_of_mem c hc'))
    · have hcc : cellCount c = cnt := by simp [cellCount, hcnt]
      by_cases hv : pyStrip c.value = ""
      · rw [segGo_skip tok ptk maxTok entries c rest dict terms vals
          (by simp [validCell, hv])]
        exact ih _ _ _ hpwrest
          (fun p hp c' hc' => hdict p hp c' (List.mem_cons_of_mem c hc'))
      · have hcand : ∀ p ∈ dictInsert dict cnt (pyStrip c.value), ∀ c' ∈ rest,
            p.1 < cellCount c' := by
          intro p hp c' hc'
          rcases mem_dictInsert dict cnt (pyStrip c.value) p hp with h | h
          · rw [h, ← hcc]
            exact hheadlt c' hc'
          · exact hdict p h c' (List.mem_cons_of_mem c hc')
        by_cases hover : maxTok < ptk +
          tok (create_segment_output (dictInsert dict cnt (pyStrip c.value)))
        · by_cases hd : dict = []
          · subst hd
            rw [segGo_over_empty tok ptk maxTok entries c rest terms vals cnt hcnt hv
              hover]
            rcases ih _ _ _ hpwrest hcand with ⟨hchain, _⟩
            refine ⟨hchain, ?_⟩
            intro s _ hne
            exact absurd rfl hne
          · rw [segGo_over_flush tok ptk maxTok entries c rest dict terms vals cnt hcnt
              hv hover hd]
            have hsingle : ∀ p ∈ dictInsert ([] : SegDict) cnt (pyStrip c.value),
                ∀ c' ∈ rest, p.1 < cellCount c' := by
              intro p hp c' hc'
              rcases mem_dictInsert [] cnt (pyStrip c.value) p hp with h | h
              · rw [h, ← hcc]
                exact hheadlt c' hc'
              · simp at h
            rcases ih (dictInsert [] cnt (pyStrip c.value))
                (addTerms [] (pyStrip c.value) entries) [pyStrip c.value] hpwrest hsingle
              with ⟨hchain, hhead⟩
            have hmkd : maxKeyInt dict ≤ cnt := by
              refine maxKeyInt_le dict cnt hd ?_
              intro p hp
              rw [← hcc]
              exact le_of_lt (hdict p hp c (List.mem_cons_self c rest))
            refine ⟨?_, ?_⟩
            · rw [List.chain'_cons']
              refine ⟨?_, hchain⟩
              intro s2 hs2
              have h1 : maxKeyInt (dictInsert ([] : SegDict) cnt (pyStrip c.value)) ≤
                  maxKeyInt s2.dict :=
                hhead s2 (Option.mem_def.mp hs2)
                  (dictInsert_ne_nil [] cnt (pyStrip c.value))
              have h2 : maxKeyInt (dictInsert ([] : SegDict) cnt (pyStrip c.value)) =
                  cnt := by
                simp [dictInsert, maxKeyInt]
              exact le_trans (le_trans hmkd (le_of_eq h2.symm)) h1
            · intro s hs _
              simp only [List.head?_cons, Option.some_inj] at hs
              rw [← hs]
        · rw [segGo_fit tok ptk maxTok entries c rest dict terms vals cnt hcnt hv hover]
          rcases ih (dictInsert dict cnt (pyStrip c.value))
              (addTerms terms (pyStrip c.value) entries) (vals ++ [pyStrip c.value])
              hpwrest hcand with ⟨hchain, hhead⟩
          refine ⟨hchain, ?_⟩
          intro s hs hd
          refine le_trans ?_ (hhead s hs (dictInsert_ne_nil dict cnt (pyStrip c.value)))
          refine maxKeyInt_le dict _ hd ?_
          intro p hp
          have hkey : p.1 ∈ dictKeys (dictInsert dict cnt (pyStrip c.value)) :=
            dictKeys_insert_of_mem dict cnt (pyStrip c.value) p.1
              (List.mem_map_of_mem Prod.fst hp)
          rcases List.mem_map.mp hkey with ⟨q, hq, hqk⟩
          rw [← hqk]
          exact le_maxKeyInt _ q hq

/-- The final emitted batch of a run over cells with strictly increasing
counts whose last cell is valid carries that last cell's count as its
maximum identity. -/
theorem segGo_last (tok : String → Nat) (ptk maxTok : Nat)
    (entries : List (String × String)) :
    ∀ (cells : List Cell) (dict : SegDict) (terms : List (String × String))
      (vals : List String),
      List.Pairwise (· < ·) (cells.map cellCount) →
      (∀ p ∈ dict, ∀ c ∈ cells, p.1 < cellCount c) →
      ∀ cl, cells.getLast? = some cl → validCell cl = true →
        ∃ s, (segGo tok ptk maxTok entries cells dict terms vals).getLast? = some s ∧
          maxKeyInt s.dict = cellCount cl := by
  intro cells
  induction cells with
  | nil =>
    intro dict terms vals _ _ cl hcl
    simp at hcl
  | cons c rest ih =>
    intro dict terms vals hpw hdict cl hcl hvalid
    have hpwrest : List.Pairwise (· < ·) (rest.map cellCount) :=
      (List.pairwise_cons.mp (by simpa using hpw)).2
    have hheadlt : ∀ c' ∈ rest, cellCount c < cellCount c' := by
      intro c' hc'
      exact (List.pairwise_cons.mp (by simpa using hpw)).1 (cellCount c')
        (List.mem_map_of_mem cellCount hc')
    by_cases hrne : rest = []
    · -- the head cell is the last cell
      subst hrne
      have hclc : cl = c := by simpa using hcl.symm
      subst hclc
      rcases validCell_elim cl hvalid with ⟨cnt, hcnt, hv⟩
      have hcc : cellCount cl = cnt := by simp [cellCount, hcnt]
      have hmaxcand : ∀ d : SegDict, (∀ p ∈ d, p.1 < cnt) →
          maxKeyInt (dictInsert d cnt (pyStrip cl.value)) = cnt := by
        intro d hdlt
        refine maxKeyInt_eq_of_mem_bound _ cnt
          (dictKeys_insert_self d cnt (pyStrip cl.value)) ?_
        intro p hp
        rcases mem_dictInsert d cnt (pyStrip cl.value) p hp with h | h
        · exact le_of_eq h
        · exact le_of_lt (hdlt p h)
      have hdlt : ∀ p ∈ dict, p.1 < cnt := by
        intro p hp
        rw [← hcc]
        exact hdict p hp cl (List.mem_cons_self cl [])
      by_cases hover : maxTok < ptk +
        tok (create_segment_output (dictInsert dict cnt (pyStrip cl.value)))
      · by_cases hd : dict = []
        · subst hd
          rw [segGo_over_empty tok ptk maxTok entries cl [] terms vals cnt hcnt hv
            hover, segGo_nil, if_neg (dictInsert_ne_nil [] cnt (pyStrip cl.value))]
          refine ⟨_, rfl, ?_⟩
          rw [hcc]
          exact hmaxcand [] (by simp)
        · rw [segGo_over_flush tok ptk maxTok entries cl [] dict terms vals cnt hcnt hv
            hover hd, segGo_nil, if_neg (dictInsert_ne_nil [] cnt (pyStrip cl.value))]
          refine ⟨⟨dictInsert [] cnt (pyStrip cl.value),
            addTerms [] (pyStrip cl.value) entries, [], [pyStrip cl.value]⟩, rfl, ?_⟩
          rw [hcc]
          exact hmaxcand [] (by simp)
      · rw [segGo_fit tok ptk maxTok entries cl [] dict terms vals cnt hcnt hv hover,
          segGo_nil, if_neg (dictInsert_ne_nil dict cnt (pyStrip cl.value))]
        refine ⟨_, rfl, ?_⟩
        rw [hcc]
        exact hmaxcand dict hdlt
    · -- the last cell lies in the (non-empty) tail
      have hcl' : rest.getLast? = some cl := by
        rcases rest with _ | ⟨r0, rtail⟩
        · exact absurd rfl hrne
        · simpa [List.getLast?_cons_cons] using hcl
      rcases hcnt : c.count with _ | cnt
      · rw [segGo_skip tok ptk maxTok entries c rest dict terms vals
          (by simp [validCell, hcnt])]
        exact ih _ _ _ hpwrest
          (fun p hp c' hc' => hdict p hp c' (List.mem_cons_of_mem c hc')) cl hcl' hvalid
      · have hcc : cellCount c = cnt := by simp [cellCount, hcnt]
        by_cases hv : pyStrip c.value = ""
        · rw [segGo_skip tok ptk maxTok entries c rest dict terms vals
            (by simp [validCell, hv])]
          exact ih _ _ _ hpwrest
            (fun p hp c' hc' => hdict p hp c' (List.mem_cons_of_mem c hc')) cl hcl' hvalid
        · have hcand : ∀ p ∈ dictInsert dict cnt (pyStrip c.value), ∀ c' ∈ rest,
              p.1 < cellCount c' := by
            intro p hp c' hc'
            rcases mem_dictInsert dict cnt (pyStrip c.value) p hp with h | h
            · rw [h, ← hcc]
              exact hheadlt c' hc'
            · exact hdict p h c' (List.mem_cons_of_mem c hc')
          by_cases hover : maxTok < ptk +
            tok (create_segment_output (dictInsert dict cnt (pyStrip c.value)))
          · by_cases hd : dict = []
            · subst hd
              rw [segGo_over_empty tok ptk maxTok entries c rest terms vals cnt hcnt hv
                hover]
              exact ih _ _ _ hpwrest hcand cl hcl' hvalid
            · rw [segGo_over_flush tok ptk maxTok entries c rest dict terms vals cnt hcnt
                hv hover hd]
              have hsingle : ∀ p ∈ dictInsert ([] : SegDict) cnt (pyStrip c.value),
                  ∀ c' ∈ rest, p.1 < cellCount c' := by
                intro p hp c' hc'
                rcases mem_dictInsert [] cnt (pyStrip c.value) p hp with h | h
                · rw [h, ← hcc]
                  exact hheadlt c' hc'
                · simp at h
              rcases ih (dictInsert [] cnt (pyStrip c.value))
                  (addTerms [] (pyStrip c.value) entries) [pyStrip c.value] hpwrest
                  hsingle cl hcl' hvalid with ⟨s, hs, hmax⟩
              refine ⟨s, ?_, hmax⟩
              rcases htail : segGo tok ptk maxTok entries rest
                  (dictInsert [] cnt (pyStrip c.value))
                  (addTerms [] (pyStrip c.value) entries) [pyStrip c.value] with _ | ⟨t, ts⟩
              · rw [htail] at hs
                simp at hs
              · rw [htail] at hs
                rw [List.getLast?_cons_cons]
                exact hs
          · rw [segGo_fit tok ptk maxTok entries c rest dict terms vals cnt hcnt hv hover]
            exact ih _ _ _ hpwrest hcand cl hcl' hvalid

theorem foldl_max_last : ∀ (l : List Cell) (a : Int) (cl : Cell),
    (∀ x ∈ l, a < cellCount x) → List.Pairwise (· < ·) (l.map cellCount) →
    l.getLast? = some cl →
    l.foldl (fun m x => max m (cellCount x)) a = cellCount cl := by
  intro l
  induction l with
  | nil =>
    intro a cl _ _ h
    simp at h
  | cons x xs ih =>
    intro a cl hlt hpw hcl
    simp only [List.foldl_cons]
    have hmax : max a (cellCount x) = cellCount x :=
      max_eq_right (le_of_lt (hlt x (List.mem_cons_self x xs)))
    rw [hmax]
    by_cases hxs : xs = []
    · subst hxs
      have : cl = x := by simpa using hcl.symm
      subst this
      rfl
    · have hcl' : xs.getLast? = some cl := by
        rcases xs with _ | ⟨y, ys⟩
        · exact absurd rfl hxs
        · simpa [List.getLast?_cons_cons] using hcl
      refine ih (cellCount x) cl ?_ (List.pairwise_cons.mp (by simpa using hpw)).2 hcl'
      intro y hy
      exact (List.pairwise_cons.mp (by simpa using hpw)).1 (cellCount y)
        (List.mem_map_of_mem cellCount hy)

theorem maxCountOf_last (cells : List Cell) (cl : Cell)
    (hpw : List.Pairwise (· < ·) (cells.map cellCount))
    (hcl : cells.getLast? = some cl) : maxCountOf cells = cellCount cl := by
  rcases cells with _ | ⟨c, rest⟩
  · simp at hcl
  · rw [maxCountOf]
    by_cases hrest : rest = []
    · subst hrest
      have : cl = c := by simpa using hcl.symm
      subst this
      rfl
    · have hcl' : rest.getLast? = some cl := by
        rcases rest with _ | ⟨y, ys⟩
        · exact absurd rfl hrest
        · simpa [List.getLast?_cons_cons] using hcl
      refine foldl_max_last rest (cellCount c) cl ?_
        (List.pairwise_cons.mp (by simpa using hpw)).2 hcl'
      intro y hy
      exact (List.pairwise_cons.mp (by simpa using hpw)).1 (cellCount y)
        (List.mem_map_of_mem cellCount hy)

theorem chain_progress (mc : Int) :
    ∀ l : List Seg, (∀ s ∈ l, s.dict ≠ []) →
      List.Chain' (fun s1 s2 => maxKeyInt s1.dict ≤ maxKeyInt s2.dict) l →
      List.Chain' (· ≤ ·) (l.map (fun s => calculate_progress s.dict mc)) := by
  intro l
  induction l with
  | nil => intro _ _; exact List.chain'_nil
  | cons a l ih =>
    intro hne hchain
    rcases List.chain'_cons'.mp hchain with ⟨hhead, htail⟩
    rw [List.map_cons, List.chain'_cons']
    refine ⟨?_, ih (fun s hs => hne s (List.mem_cons_of_mem a hs)) htail⟩
    intro q hq
    rcases l with _ | ⟨b, l'⟩
    · simp at hq
    · simp only [List.map_cons, List.head?_cons, Option.mem_def, Option.some_inj] at hq
      rw [← hq]
      exact calculate_progress_mono a.dict b.dict mc
        (hne a (List.mem_cons_self a _))
        (hne b (List.mem_cons_of_mem a (List.mem_cons_self b l')))
        (hhead b (by simp))

/-- C7 (amended): provided the units' counts are strictly increasing along
the input (missing counts read as 0) and the last unit is valid (count
present, non-empty trimmed value), the reported progress is non-decreasing
across the emitted batches and the final batch's progress equals 1.0. -/
theorem C7_progress_theorem (tok : String → Nat) (prompts : List String) (maxTok : Nat)
    (entries : List (String × String)) (cells : List Cell)
    (hinc : List.Pairwise (· < ·) (cells.map cellCount))
    (hlast : ∀ cl, cells.getLast? = some cl → validCell cl = true) :
    List.Chain' (· ≤ ·)
        ((segRun tok prompts maxTok entries cells).map (segProgress cells)) ∧
      ∀ s, (segRun tok prompts maxTok entries cells).getLast? = some s →
        segProgress cells s = 1 := by
  constructor
  · refine chain_progress (maxCountOf cells) _ ?_ ?_
    · intro s hs
      exact segGo_dict_ne_nil tok _ maxTok entries cells [] [] [] s hs
    · exact (segGo_maxkey_mono tok _ maxTok entries cells [] [] [] hinc (by simp)).1
  · intro s hs
    have hsome : ∃ cl, cells.getLast? = some cl := by
      rcases cells with _ | ⟨c, rest⟩
      · rw [segRun, segGo_nil] at hs
        simp at hs
      · exact ⟨(c :: rest).getLast (List.cons_ne_nil c rest),
          List.getLast?_eq_getLast_of_ne_nil (List.cons_ne_nil c rest)⟩
    rcases hsome with ⟨cl, hcl⟩
    rcases segGo_last tok (prompt_token_count tok prompts) maxTok entries cells [] [] []
      hinc (by simp) cl hcl (hlast cl hcl) with ⟨s', hs', hmax⟩
    have hss : s = s' := Option.some.inj (hs.symm.trans hs')
    subst hss
    have hmem : s ∈ segRun tok prompts maxTok entries cells := by
      rcases List.mem_getLast?_eq_getLast (Option.mem_def.mpr hs) with ⟨hne, heq⟩
      rw [heq]
      exact List.getLast_mem hne
    refine calculate_progress_eq_one s.dict (maxCountOf cells)
      (segGo_dict_ne_nil tok _ maxTok entries cells [] [] [] s hmem) ?_
    rw [hmax, maxCountOf_last cells cl hinc hcl]

/-- C7 counterexample: the input `[{count 1, "A"}, {count 2, ""}]` — identities
increasing, but the maximal identity belongs to an empty-valued unit — yields
a single batch `{1: "A"}` whose (final) progress is `1/2`, not `1.0`: the
denominator counts the skipped empty unit. -/
theorem C7_counterexample :
    (segRun charCount ["", "", "", ""] 100 []
        [⟨some 1, "A"⟩, ⟨some 2, ""⟩]).getLast? =
      some ⟨[(1, "A")], [], [], ["A"]⟩ ∧
    segProgress [⟨some 1, "A"⟩, ⟨some 2, ""⟩] ⟨[(1, "A")], [], [], ["A"]⟩ ≠ 1 := by
  constructor
  · decide
  · show calculate_progress [(1, "A")] (maxCountOf [⟨some 1, "A"⟩, ⟨some 2, ""⟩]) ≠ 1
    have h1 : maxCountOf [⟨some 1, "A"⟩, ⟨some 2, ""⟩] = 2 := by decide
    have h2 : maxKeyInt [(1, "A")] = 1 := by decide
    rw [calculate_progress, if_neg (by simp), h1, h2, if_pos (by norm_num)]
    norm_num

/-- Witness for C7: on a concrete increasing, valid input the final batch's
progress is exactly 1. -/
theorem C7_progress_theorem_witness :
    segProgress [⟨some 1, "aaaa"⟩, ⟨some 2, "bbbb"⟩]
      ⟨[(2, "bbbb")], [], [], ["bbbb"]⟩ = 1 :=
  (C7_progress_theorem charCount ["", "", "", ""] 25 []
    [⟨some 1, "aaaa"⟩, ⟨some 2, "bbbb"⟩] (by decide)
    (by
      intro cl h
      have h2 : cl = Cell.mk (some 2) "bbbb" := by
        have := h.symm.trans (show ([⟨some 1, "aaaa"⟩, ⟨some 2, "bbbb"⟩] :
          List Cell).getLast? = some ⟨some 2, "bbbb"⟩ from rfl)
        exact (Option.some.inj this)
      rw [h2]
      decide)).2
    ⟨[(2, "bbbb")], [], [], ["bbbb"]⟩ (by decide)

/-! ### C9 and C10: recombination lemmas -/

theorem alLookup_alSet {α : Type} (l : List (String × α)) (k : String) (v : α)
    (key : String) :
    alLookup (alSet l k v) key = if k = key then some v else alLookup l key := by
  induction l with
  | nil =>
    by_cases h : k = key <;> simp [alSet, alLookup, h]
  | cons p rest ih =>
    by_cases hp : p.1 = k
    · rw [alSet, if_pos hp]
      by_cases hk : k = key
      · rw [if_pos hk, alLookup, if_pos (hp.trans hk)]
      · rw [if_neg hk, alLookup, if_neg (fun h => hk (hp ▸ h)), alLookup,
          if_neg (fun h => hk (hp ▸ h))]
    · rw [alSet, if_neg hp, alLookup, alLookup]
      by_cases hpk : p.1 = key
      · rw [if_pos hpk, if_pos hpk]
        rw [if_neg (fun h => hp (hpk.trans h.symm))]
      · rw [if_neg hpk, if_neg hpk, ih]

theorem alLookup_some_mem {α : Type} (l : List (String × α)) (k : String) (v : α)
    (h : alLookup l k = some v) : (k, v) ∈ l := by
  induction l with
  | nil => simp [alLookup] at h
  | cons p rest ih =>
    rw [alLookup] at h
    by_cases hp : p.1 = k
    · rw [if_pos hp, Option.some_inj] at h
      have hpkv : p = (k, v) := by
        rw [← hp, ← h]
      rw [← hpkv]
      exact List.mem_cons_self p rest
    · rw [if_neg hp] at h
      exact List.mem_cons_of_mem p (ih h)

theorem mem_alSet {α : Type} (l : List (String × α)) (k : String) (v : α) :
    ∀ q ∈ alSet l k v, q = (k, v) ∨ q ∈ l := by
  induction l with
  | nil =>
    intro q hq
    simp only [alSet, List.mem_singleton] at hq
    exact Or.inl hq
  | cons p rest ih =>
    intro q hq
    by_cases hp : p.1 = k
    · rw [alSet, if_pos hp] at hq
      rcases List.mem_cons.mp hq with rfl | hq2
      · left
        rw [← hp]
      · exact Or.inr (List.mem_cons_of_mem p hq2)
    · rw [alSet, if_neg hp] at hq
      rcases List.mem_cons.mp hq with rfl | hq2
      · exact Or.inr (List.mem_cons_self p rest)
      · rcases ih q hq2 with h | h
        · exact Or.inl h
        · exact Or.inr (List.mem_cons_of_mem p h)

theorem alSet_keys_nodup {α : Type} (l : List (String × α)) (k : String) (v : α)
    (h : (l.map Prod.fst).Nodup) : ((alSet l k v).map Prod.fst).Nodup := by
  induction l with
  | nil => simp [alSet]
  | cons p rest ih =>
    rw [List.map_cons, List.nodup_cons] at h
    rcases h with ⟨hp1, hp2⟩
    by_cases hp : p.1 = k
    · rw [alSet, if_pos hp, List.map_cons, List.nodup_cons]
      exact ⟨hp1, hp2⟩
    · rw [alSet, if_neg hp, List.map_cons, List.nodup_cons]
      refine ⟨?_, ih hp2⟩
      intro hmem
      rcases List.mem_map.mp hmem with ⟨q, hq, hqk⟩
      rcases mem_alSet rest k v q hq with rfl | hq2
      · exact hp hqk.symm
      · exact hp1 (by rw [← hqk]; exact List.mem_map_of_mem Prod.fst hq2)

/-- Case analysis of one `chunkStep`: it either ignores the item (dead item)
or updates only the key `rsrcCount it`, creating a group whose
`original_count` is `rsrcOrigin it` or modifying a group already present
under that key (preserving its `original_count`). -/
theorem chunkStep_cases (acc : List (String × ChunkGroup)) (it : RSrcItem) :
    chunkStep acc it = acc ∨
      (rsrcLive it = true ∧
        ∃ acc1,
          (acc1 = acc ∨
            ∃ g1, acc1 = alSet acc (rsrcCount it) g1 ∧
              (g1.original_count = rsrcOrigin it ∨
                ∃ g0, alLookup acc (rsrcCount it) = some g0 ∧
                  g1.original_count = g0.original_count)) ∧
          (chunkStep acc it = acc1 ∨
            ∃ g2, chunkStep acc it = alSet acc1 (rsrcCount it) g2 ∧
              ∃ g0, alLookup acc1 (rsrcCount it) = some g0 ∧
                g2.original_count = g0.original_count)) := by
  by_cases h1 : it.count.getD "" = ""
  · left
    rw [chunkStep]
    simp [h1]
  · by_cases h2 : it.value.getD "" = ""
    · left
      rw [chunkStep]
      rw [if_neg h1, if_pos h2]
    · right
      have hlive : rsrcLive it = true := by
        simp only [rsrcLive, rsrcCount, rsrcValue, Bool.and_eq_true, decide_eq_true_iff]
        exact ⟨h1, h2⟩
      refine ⟨hlive, ?_⟩
      have hstep : chunkStep acc it =
          (let acc1 := match alLookup acc (it.count.getD "") with
            | none => alSet acc (it.count.getD "") ⟨List.replicate (parseChunk (it.chunk.getD "1/1")).2.toNat none, it.type.getD "text", it.original_count.getD (it.count.getD "")⟩
            | some g => if ((g.chunks.length : Int)) < (parseChunk (it.chunk.getD "1/1")).2 then alSet acc (it.count.getD "") ⟨g.chunks ++ List.replicate ((parseChunk (it.chunk.getD "1/1")).2 - (g.chunks.length : Int)).toNat none, g.type, g.original_count⟩ else acc
          match alLookup acc1 (it.count.getD "") with
          | none => acc1
          | some g => if 0 ≤ (parseChunk (it.chunk.getD "1/1")).1 - 1 ∧ (parseChunk (it.chunk.getD "1/1")).1 - 1 < (g.chunks.length : Int) then alSet acc1 (it.count.getD "") ⟨listSetAt g.chunks ((parseChunk (it.chunk.getD "1/1")).1 - 1).toNat (it.value.getD ""), g.type, g.original_count⟩ else acc1) := by
        rw [chunkStep]
        simp only [if_neg h1, if_neg h2]
      rw [hstep]
      rcases hl : alLookup acc (it.count.getD "") with _ | g0
      · simp only [hl]
        refine ⟨alSet acc (it.count.getD "") ⟨List.replicate (parseChunk (it.chunk.getD "1/1")).2.toNat none, it.type.getD "text", it.original_count.getD (it.count.getD "")⟩, Or.inr ⟨⟨List.replicate (parseChunk (it.chunk.getD "1/1")).2.toNat none, it.type.getD "text", it.original_count.getD (it.count.getD "")⟩, rfl, Or.inl rfl⟩, ?_⟩
        rcases hl2 : alLookup (alSet acc (it.count.getD "") ⟨List.replicate (parseChunk (it.chunk.getD "1/1")).2.toNat none, it.type.getD "text", it.original_count.getD (it.count.getD "")⟩) (it.count.getD "") with _ | g1
        · simp only [hl2]
          exact Or.inl trivial
        · simp only [hl2]
          by_cases hrange : 0 ≤ (parseChunk (it.chunk.getD "1/1")).1 - 1 ∧
              (parseChunk (it.chunk.getD "1/1")).1 - 1 < (g1.chunks.length : Int)
          · rw [if_pos hrange]
            exact Or.inr ⟨⟨listSetAt g1.chunks ((parseChunk (it.chunk.getD "1/1")).1 - 1).toNat (it.value.getD ""), g1.type, g1.original_count⟩, rfl, g1, hl2, rfl⟩
          · rw [if_neg hrange]
            exact Or.inl rfl
      · simp only [hl]
        by_cases hlen : ((g0.chunks.length : Int)) < (parseChunk (it.chunk.getD "1/1")).2
        · rw [if_pos hlen]
          refine ⟨alSet acc (it.count.getD "") ⟨g0.chunks ++ List.replicate ((parseChunk (it.chunk.getD "1/1")).2 - (g0.chunks.length : Int)).toNat none, g0.type, g0.original_count⟩, Or.inr ⟨⟨g0.chunks ++ List.replicate ((parseChunk (it.chunk.getD "1/1")).2 - (g0.chunks.length : Int)).toNat none, g0.type, g0.original_count⟩, rfl, Or.inr ⟨g0, hl, rfl⟩⟩, ?_⟩
          rcases hl2 : alLookup (alSet acc (it.count.getD "") ⟨g0.chunks ++ List.replicate ((parseChunk (it.chunk.getD "1/1")).2 - (g0.chunks.length : Int)).toNat none, g0.type, g0.original_count⟩) (it.count.getD "") with _ | g1
          · simp only [hl2]
            exact Or.inl trivial
          · simp only [hl2]
            by_cases hrange : 0 ≤ (parseChunk (it.chunk.getD "1/1")).1 - 1 ∧
                (parseChunk (it.chunk.getD "1/1")).1 - 1 < (g1.chunks.length : Int)
            · rw [if_pos hrange]
              exact Or.inr ⟨⟨listSetAt g1.chunks ((parseChunk (it.chunk.getD "1/1")).1 - 1).toNat (it.value.getD ""), g1.type, g1.original_count⟩, rfl, g1, hl2, rfl⟩
            · rw [if_neg hrange]
              exact Or.inl rfl
        · rw [if_neg hlen]
          refine ⟨acc, Or.inl rfl, ?_⟩
          rcases hl2 : alLookup acc (it.count.getD "") with _ | g1
          · simp only [hl2]
            exact Or.inl trivial
          · simp only [hl2]
            by_cases hrange : 0 ≤ (parseChunk (it.chunk.getD "1/1")).1 - 1 ∧
                (parseChunk (it.chunk.getD "1/1")).1 - 1 < (g1.chunks.length : Int)
            · rw [if_pos hrange]
              exact Or.inr ⟨⟨listSetAt g1.chunks ((parseChunk (it.chunk.getD "1/1")).1 - 1).toNat (it.value.getD ""), g1.type, g1.original_count⟩, rfl, g1, hl2, rfl⟩
            · rw [if_neg hrange]
              exact Or.inl rfl

theorem chunkStep_keys_nodup (acc : List (String × ChunkGroup)) (it : RSrcItem)
    (h : (acc.map Prod.fst).Nodup) : ((chunkStep acc it).map Prod.fst).Nodup := by
  rcases chunkStep_cases acc it with heq | ⟨_, acc1, hacc1, hstep⟩
  · rw [heq]; exact h
  · have h1 : (acc1.map Prod.fst).Nodup := by
      rcases hacc1 with rfl | ⟨g1, rfl, _⟩
      · exact h
      · exact alSet_keys_nodup acc _ _ h
    rcases hstep with heq | ⟨g2, heq, _⟩
    · rw [heq]; exact h1
    · rw [heq]; exact alSet_keys_nodup acc1 _ _ h1

theorem collectChunks_keys_nodup (src : List RSrcItem) :
    ((collectChunks src).map Prod.fst).Nodup := by
  suffices h : ∀ acc : List (String × ChunkGroup), (acc.map Prod.fst).Nodup →
      ((src.foldl chunkStep acc).map Prod.fst).Nodup by
    exact h [] List.nodup_nil
  induction src with
  | nil => intro acc h; exact h
  | cons it rest ih =>
    intro acc h
    simp only [List.foldl_cons]
    exact ih _ (chunkStep_keys_nodup acc it h)

theorem chunkStep_origin (Q : String → String → Prop)
    (acc : List (String × ChunkGroup)) (it : RSrcItem)
    (hacc : ∀ q ∈ acc, Q q.1 q.2.original_count)
    (hnew : rsrcLive it = true → Q (rsrcCount it) (rsrcOrigin it)) :
    ∀ q ∈ chunkStep acc it, Q q.1 q.2.original_count := by
  rcases chunkStep_cases acc it with heq | ⟨hlive, acc1, hacc1, hstep⟩
  · rw [heq]; exact hacc
  · have h1 : ∀ q ∈ acc1, Q q.1 q.2.original_count := by
      rcases hacc1 with rfl | ⟨g1, rfl, hg1⟩
      · exact hacc
      · intro q hq
        rcases mem_alSet acc (rsrcCount it) g1 q hq with rfl | hq2
        · rcases hg1 with hg1 | ⟨g0, hg0, hg1⟩
          · simpa [hg1] using hnew hlive
          · have := hacc (rsrcCount it, g0) (alLookup_some_mem acc (rsrcCount it) g0 hg0)
            simpa [hg1] using this
        · exact hacc q hq2
    rcases hstep with heq | ⟨g2, heq, g0, hg0, hg2⟩
    · rw [heq]; exact h1
    · rw [heq]
      intro q hq
      rcases mem_alSet acc1 (rsrcCount it) g2 q hq with rfl | hq2
      · have := h1 (rsrcCount it, g0) (alLookup_some_mem acc1 (rsrcCount it) g0 hg0)
        simpa [hg2] using this
      · exact h1 q hq2

theorem collectChunks_origin (src : List RSrcItem) :
    ∀ q ∈ collectChunks src, ∃ it ∈ src, rsrcLive it = true ∧
      q.1 = rsrcCount it ∧ q.2.original_count = rsrcOrigin it := by
  suffices h : ∀ (l : List RSrcItem) (acc : List (String × ChunkGroup)),
      (∀ it ∈ l, it ∈ src) →
      (∀ q ∈ acc, ∃ it ∈ src, rsrcLive it = true ∧
        q.1 = rsrcCount it ∧ q.2.original_count = rsrcOrigin it) →
      ∀ q ∈ l.foldl chunkStep acc, ∃ it ∈ src, rsrcLive it = true ∧
        q.1 = rsrcCount it ∧ q.2.original_count = rsrcOrigin it by
    exact h src [] (fun it h' => h') (by simp)
  intro l
  induction l with
  | nil => intro acc _ hacc; exact hacc
  | cons it rest ih =>
    intro acc hsub hacc
    simp only [List.foldl_cons]
    refine ih _ (fun x hx => hsub x (List.mem_cons_of_mem it hx)) ?_
    exact chunkStep_origin
      (fun k o => ∃ j ∈ src, rsrcLive j = true ∧ k = rsrcCount j ∧ o = rsrcOrigin j)
      acc it hacc
      (fun hlive => ⟨it, hsub it (List.mem_cons_self it rest), hlive, rfl, rfl⟩)

theorem mergeStep_mem (tb : List (String × (String × String)))
    (acc : List (String × RecombRecord)) (p : String × ChunkGroup) :
    ∀ e ∈ mergeStep tb acc p, e ∈ acc ∨ e.1 = p.2.original_count := by
  intro e he
  rw [mergeStep] at he
  rcases h : alLookup acc p.2.original_count with _ | r
  · simp only [h] at he
    rcases mem_alSet acc p.2.original_count _ e he with rfl | he2
    · exact Or.inr rfl
    · exact Or.inl he2
  · simp only [h] at he
    rcases mem_alSet acc p.2.original_count _ e he with rfl | he2
    · exact Or.inr rfl
    · exact Or.inl he2

theorem mergeResults_keys (cc : List (String × ChunkGroup))
    (tb : List (String × (String × String))) :
    ∀ e ∈ mergeResults cc tb, ∃ q ∈ cc, e.1 = q.2.original_count := by
  suffices h : ∀ (l : List (String × ChunkGroup)) (acc : List (String × RecombRecord)),
      (∀ q ∈ l, q ∈ cc) →
      (∀ e ∈ acc, ∃ q ∈ cc, e.1 = q.2.original_count) →
      ∀ e ∈ l.foldl (mergeStep tb) acc, ∃ q ∈ cc, e.1 = q.2.original_count by
    exact h cc [] (fun q hq => hq) (by simp)
  intro l
  induction l with
  | nil => intro acc _ hacc; exact hacc
  | cons p rest ih =>
    intro acc hsub hacc
    simp only [List.foldl_cons]
    refine ih _ (fun x hx => hsub x (List.mem_cons_of_mem p hx)) ?_
    intro e he
    rcases mergeStep_mem tb acc p e he with h1 | h1
    · exact hacc e h1
    · exact ⟨p, hsub p (List.mem_cons_self p rest), h1⟩

/-- Characterisation of the merged mapping: the record at an origin key is
the fold of that key's contributions, in encounter order. -/
theorem mergeResults_lookup (tb : List (String × (String × String))) (oc : String) :
    ∀ (cc : List (String × ChunkGroup)) (acc : List (String × RecombRecord)),
      alLookup (cc.foldl (mergeStep tb) acc) oc =
        combineR oc (alLookup acc oc) (contribs tb cc oc) := by
  intro cc
  induction cc with
  | nil =>
    intro acc
    rcases h : alLookup acc oc with _ | r <;>
      simp [contribs, combineR, extRec, h]
  | cons p cc' ih =>
    intro acc
    simp only [List.foldl_cons]
    rw [ih (mergeStep tb acc p)]
    by_cases hoc : p.2.original_count = oc
    · rcases hacc : alLookup acc oc with _ | r
      · have hstep : alLookup (mergeStep tb acc p) oc =
            some ⟨keyOf oc, (contribOf tb p).type, (contribOf tb p).orig,
              (contribOf tb p).trans⟩ := by
          rw [mergeStep]
          simp only [hoc, hacc]
          rw [alLookup_alSet, if_pos rfl]
          rfl
        rw [hstep]
        simp only [contribs, List.filterMap_cons, if_pos hoc]
        rfl
      · have hstep : alLookup (mergeStep tb acc p) oc =
            some ⟨r.count, r.type, r.original ++ (contribOf tb p).orig,
              r.translated ++ (contribOf tb p).trans⟩ := by
          rw [mergeStep]
          simp only [hoc, hacc]
          rw [alLookup_alSet, if_pos rfl]
          rfl
        rw [hstep]
        simp only [contribs, List.filterMap_cons, if_pos hoc]
        rfl
    · have hstep : alLookup (mergeStep tb acc p) oc = alLookup acc oc := by
        rw [mergeStep]
        rcases h2 : alLookup acc p.2.original_count with _ | r
        · simp only [h2]
          rw [alLookup_alSet, if_neg hoc]
        · simp only [h2]
          rw [alLookup_alSet, if_neg hoc]
      rw [hstep]
      simp only [contribs, List.filterMap_cons, if_neg hoc]

theorem contribs_nil (tb : List (String × (String × String))) (oc : String) :
    ∀ cc : List (String × ChunkGroup), (∀ q ∈ cc, q.2.original_count ≠ oc) →
      contribs tb cc oc = [] := by
  intro cc
  induction cc with
  | nil => intro _; rfl
  | cons q rest ih =>
    intro h
    simp only [contribs, List.filterMap_cons,
      if_neg (h q (List.mem_cons_self q rest))]
    exact ih (fun q' hq' => h q' (List.mem_cons_of_mem q hq'))

theorem contribs_unique (tb : List (String × (String × String))) :
    ∀ (cc : List (String × ChunkGroup)) (c : String) (g : ChunkGroup),
      ((cc.map Prod.fst).Nodup) → (c, g) ∈ cc →
      (∀ q ∈ cc, q.2.original_count = g.original_count → q = (c, g)) →
      contribs tb cc g.original_count = [contribOf tb (c, g)] := by
  intro cc
  induction cc with
  | nil =>
    intro c g _ hmem
    simp at hmem
  | cons q rest ih =>
    intro c g hnodup hmem huniq
    rcases List.mem_cons.mp hmem with heq | hmem2
    · have hq : q = (c, g) := heq.symm
      subst hq
      simp only [contribs, List.filterMap_cons, if_pos rfl]
      have hnorest : ∀ q' ∈ rest, q'.2.original_count ≠ g.original_count := by
        intro q' hq' hoc
        have hq'' := huniq q' (List.mem_cons_of_mem _ hq') hoc
        rw [List.map_cons, List.nodup_cons] at hnodup
        apply hnodup.1
        rw [hq''] at hq'
        exact List.mem_map_of_mem Prod.fst hq'
      rw [show List.filterMap (fun p => if p.2.original_count = g.original_count
        then some (contribOf tb p) else none) rest =
          contribs tb rest g.original_count from rfl]
      rw [contribs_nil tb g.original_count rest hnorest]
      simp
    · have hqne : q.2.original_count ≠ g.original_count := by
        intro h
        have hq := huniq q (List.mem_cons_self q rest) h
        rw [List.map_cons, List.nodup_cons] at hnodup
        apply hnodup.1
        rw [hq]
        have : c = (c, g).1 := rfl
        rw [this]
        exact List.mem_map_of_mem Prod.fst hmem2
      simp only [contribs, List.filterMap_cons, if_neg hqne]
      rw [show List.filterMap (fun p => if p.2.original_count = g.original_count
        then some (contribOf tb p) else none) rest =
          contribs tb rest g.original_count from rfl]
      refine ih c g ?_ hmem2 (fun q' hq' hoc => huniq q' (List.mem_cons_of_mem q hq') hoc)
      rw [List.map_cons, List.nodup_cons] at hnodup
      exact hnodup.2

/-- C10: a source unit with an empty value or a missing/empty count never
produces a recombined record: if every unit carrying a given origin identity
is dead in this sense, the `result_by_original_count` mapping built by
`recombine_split_jsons` has no entry for that origin identity at all. -/
theorem C10_dead_unit_absent (src : List RSrcItem) (trans : List TransItem) (o : String)
    (h : ∀ it ∈ src, rsrcOrigin it = o → rsrcLive it = false) :
    alLookup (mergeResults (collectChunks src) (collectTrans trans)) o = none ∧
      ∀ e ∈ mergeResults (collectChunks src) (collectTrans trans), e.1 ≠ o := by
  have hkeys : ∀ e ∈ mergeResults (collectChunks src) (collectTrans trans), e.1 ≠ o := by
    intro e he heo
    rcases mergeResults_keys (collectChunks src) (collectTrans trans) e he with
      ⟨q, hq, hkey⟩
    rcases collectChunks_origin src q hq with ⟨it, hit, hlive, _, horigin⟩
    have ho : rsrcOrigin it = o := by
      rw [← horigin, ← hkey, heo]
    rw [h it hit ho] at hlive
    exact Bool.false_ne_true hlive
  refine ⟨?_, hkeys⟩
  rcases hlk : alLookup (mergeResults (collectChunks src) (collectTrans trans)) o
    with _ | r
  · rfl
  · exact absurd rfl (hkeys (o, r) (alLookup_some_mem _ o r hlk))

/-- Witness for C10: a unit with an empty value contributes nothing; its
origin identity is absent from the merged mapping. -/
theorem C10_dead_unit_absent_witness :
    alLookup (mergeResults
      (collectChunks [⟨some "1", none, none, some "", some "text"⟩])
      (collectTrans [])) "1" = none :=
  (C10_dead_unit_absent [⟨some "1", none, none, some "", some "text"⟩] [] "1"
    (by decide)).1

/-- C9: a source group (one `count` key) matched by no translated entry does
not fail recombination: when it is the only group with its origin identity,
the output contains a record whose `translated` field equals the joined
original text of the group's chunk slots — the original is copied through. -/
theorem C9_missing_translation (src : List RSrcItem) (trans : List TransItem)
    (c : String) (g : ChunkGroup)
    (hc : alLookup (collectChunks src) c = some g)
    (hnt : alLookup (collectTrans trans) c = none)
    (huniq : ∀ q ∈ collectChunks src,
      q.2.original_count = g.original_count → q = (c, g)) :
    RecombRecord.mk (keyOf g.original_count) g.type (joinChunks g) (joinChunks g) ∈
      recombine_split_jsons src trans := by
  have hmemcg : (c, g) ∈ collectChunks src := alLookup_some_mem _ c g hc
  have hcontribs : contribs (collectTrans trans) (collectChunks src)
      g.original_count = [contribOf (collectTrans trans) (c, g)] :=
    contribs_unique (collectTrans trans) (collectChunks src) c g
      (collectChunks_keys_nodup src) hmemcg huniq
  have hlk : alLookup (mergeResults (collectChunks src) (collectTrans trans))
      g.original_count =
      some (RecombRecord.mk (keyOf g.original_count) g.type (joinChunks g)
        (joinChunks g)) := by
    rw [mergeResults, mergeResults_lookup, hcontribs]
    show combineR g.original_count none [contribOf (collectTrans trans) (c, g)] = _
    rw [combineR]
    simp [extRec, contribOf, hnt]
  have hmem1 : (g.original_count, RecombRecord.mk (keyOf g.original_count) g.type
      (joinChunks g) (joinChunks g)) ∈
      mergeResults (collectChunks src) (collectTrans trans) :=
    alLookup_some_mem _ _ _ hlk
  rw [recombine_split_jsons]
  exact ((sortStable_perm (fun r1 r2 => keyLe r1.count r2.count) _).mem_iff).mpr
    (List.mem_map_of_mem Prod.snd hmem1)

/-- Witness for C9: a single source unit with no translated entries; its
record copies the original text into the translated field. -/
theorem C9_missing_translation_witness :
    RecombRecord.mk (keyOf "1") "text" (joinChunks ⟨[some "Hi"], "text", "1"⟩)
        (joinChunks ⟨[some "Hi"], "text", "1"⟩) ∈
      recombine_split_jsons [⟨some "1", some "1", some "1/1", some "Hi", some "text"⟩]
        [] :=
  C9_missing_translation [⟨some "1", some "1", some "1/1", some "Hi", some "text"⟩] []
    "1" ⟨[some "Hi"], "text", "1"⟩ (by decide) (by decide) (by decide)
